import Mathlib

/-!
# Parallel marching squares (`tema1_par.c`): a shallow embedding

The C program splits three loops (bicubic rescale, threshold sampling, contour
stamping) over `P` worker threads by row ranges.  The embedding keeps the C
names.  `int` arithmetic is carried out in `Nat` (all values are non-negative
sizes and indices); an `unsigned char` store is an explicit `% 256`.

A pixel buffer (`ppm_pixel *data`) is a map from the linear index to the
pixel, and the grid (`unsigned char **grid`) is a map from the cell `(i, j)`
to its byte.  A loop nest whose stored values do not depend on the buffer it
writes is embedded as the sequence of its stores, in program order, applied to
the buffer by `applyStores`.  A map is total: an index outside the allocated
part of a buffer names an entry like any other, and whether the indices of a
loop stay inside the allocation is a statement about those indices.
-/

set_option autoImplicit false

namespace MarchingSquares

/-! ## Constants (`#define`) -/

def CONTOUR_CONFIG_COUNT : Nat := 16
def STEP : Nat := 8
def SIGMA : Nat := 200
def RESCALE_X : Nat := 2048
def RESCALE_Y : Nat := 2048

/-! ## Data model -/

/-- One RGB pixel (`ppm_pixel`); each channel is an `unsigned char`. -/
structure ppm_pixel where
  red : Nat
  green : Nat
  blue : Nat
deriving DecidableEq, Repr

/-- An image (`ppm_image`): the two dimensions and the pixel buffer.  The file
addresses pixel `(r, c)` at index `r * y + c`. -/
structure ppm_image where
  x : Nat
  y : Nat
  data : Nat → ppm_pixel

/-- The sampling grid `unsigned char **grid`, addressed by cell. -/
abbrev Grid := Nat × Nat → Nat

/-- One assignment `m[k] = v`. -/
def store {κ α : Type} [DecidableEq κ] (m : κ → α) (k : κ) (v : α) : κ → α :=
  fun k' => if k' = k then v else m k'

/-- A sequence of assignments, performed from left to right. -/
def applyStores {κ α : Type} [DecidableEq κ] (ops : List (κ × α)) (m : κ → α) : κ → α :=
  ops.foldl (fun acc op => store acc op.1 op.2) m

/-! ## Work partition

`int start = id * (double)(N) / P;`
`int end = min((id + 1) * (double)(N) / P, N);`

The division is the exact quotient, the conversion to `int` truncates (the
operands are non-negative, so truncation is the floor). -/

/-- The first index owned by worker `id`. -/
def part_start (id P N : Nat) : Nat :=
  ⌊((id : ℚ) * (N : ℚ)) / (P : ℚ)⌋₊

/-- The index one past the last owned by worker `id`. -/
def part_end (id P N : Nat) : Nat :=
  ⌊min ((((id : ℚ) + 1) * (N : ℚ)) / (P : ℚ)) (N : ℚ)⌋₊

/-- The iteration space `for (i = start; i < end; i++)` of worker `id`. -/
def part_range (id P N : Nat) : List Nat :=
  List.range' (part_start id P N) (part_end id P N - part_start id P N)

/-- The owner of index `k`: the worker whose range holds it (used in proofs
only; the program never computes it). -/
def part_owner (k P N : Nat) : Nat := ((k + 1) * P - 1) / N

/-! ## Sampling (`thread_function`, lines 217-266 and 280-329)

The two branches of `thread_function` run the same text on
`struct_thread->image` and on `struct_thread->scaled_image`; `image` below is
that active image. -/

/-- The threshold test
`unsigned char curr_color = (red + green + blue) / 3;`
`if (curr_color > sigma) 0 else 1`. -/
def classify (sigma : Nat) (curr_pixel : ppm_pixel) : Nat :=
  let curr_color := (curr_pixel.red + curr_pixel.green + curr_pixel.blue) / 3 % 256
  if curr_color > sigma then 0 else 1

/-- The byte `unsigned char curr_color = (red + green + blue) / 3`, the channel average. -/
def curr_color (curr_pixel : ppm_pixel) : Nat :=
  (curr_pixel.red + curr_pixel.green + curr_pixel.blue) / 3 % 256

/-- The first loop nest: `grid[i][j]` for the worker's rows `i` and all `j < q`. -/
def sample_interior_stores (image : ppm_image) (step_x step_y id P : Nat) :
    List ((Nat × Nat) × Nat) :=
  let p := image.x / step_x
  let q := image.y / step_y
  (part_range id P p).flatMap fun i =>
    (List.range q).map fun j =>
      ((i, j), classify SIGMA (image.data (i * step_x * image.y + j * step_y)))

/-- The second loop: `grid[i][q]` for the worker's rows `i`. -/
def sample_last_col_stores (image : ppm_image) (step_x step_y id P : Nat) :
    List ((Nat × Nat) × Nat) :=
  let p := image.x / step_x
  let q := image.y / step_y
  (part_range id P p).map fun i =>
    ((i, q), classify SIGMA (image.data (i * step_x * image.y + image.x - 1)))

/-- The third loop: `grid[p][i]` for `i` in the worker's partition of `q`. -/
def sample_last_row_stores (image : ppm_image) (step_x step_y id P : Nat) :
    List ((Nat × Nat) × Nat) :=
  let p := image.x / step_x
  let q := image.y / step_y
  (part_range id P q).map fun i =>
    ((p, i), classify SIGMA (image.data ((image.x - 1) * image.y + i * step_y)))

/-- All grid stores of worker `id`, in program order: the interior loop nest,
`grid[p][q] = 0`, the last-column loop, the last-row loop. -/
def sample_stores (image : ppm_image) (step_x step_y id P : Nat) :
    List ((Nat × Nat) × Nat) :=
  let p := image.x / step_x
  let q := image.y / step_y
  sample_interior_stores image step_x step_y id P
    ++ [((p, q), 0)]
    ++ sample_last_col_stores image step_x step_y id P
    ++ sample_last_row_stores image step_x step_y id P

/-- The sampling stage of worker `id`. -/
def sample_stage (image : ppm_image) (step_x step_y id P : Nat) (grid : Grid) : Grid :=
  applyStores (sample_stores image step_x step_y id P) grid

/-- The sampling stages of the workers listed in `order`, one after another,
on an image that is not modified meanwhile.  This is the reference schedule:
`thread_function` has no barrier between its sampling and its `march`, so in a
run of the program (`run_direct`) a worker may sample pixels that another
worker has already stamped. -/
def sample_all (image : ppm_image) (step_x step_y P : Nat) (order : List Nat)
    (grid : Grid) : Grid :=
  order.foldl (fun g id => sample_stage image step_x step_y id P g) grid

/-- The value that every sampling store into cell `c` carries (used in proofs only: it
collects the right-hand sides of the four store groups of `sample_stores`). -/
def sample_value (image : ppm_image) (step_x step_y : Nat) (c : Nat × Nat) : Nat :=
  let p := image.x / step_x
  let q := image.y / step_y
  if c.1 < p then
    if c.2 < q then classify SIGMA (image.data (c.1 * step_x * image.y + c.2 * step_y))
    else classify SIGMA (image.data (c.1 * step_x * image.y + image.x - 1))
  else
    if c.2 < q then classify SIGMA (image.data ((image.x - 1) * image.y + c.2 * step_y))
    else 0

/-! ## Stamping (`update_image`, `march`) -/

/-- The stores of `update_image(image, contour, x, y)`: for each `i`, `j` the
pair (`image_pixel_index`, `contour->data[contour_pixel_index]`). -/
def update_image_stores (image contour : ppm_image) (x y : Nat) :
    List (Nat × ppm_pixel) :=
  (List.range contour.x).flatMap fun i =>
    (List.range contour.y).map fun j =>
      let contour_pixel_index := contour.x * i + j
      let image_pixel_index := (x + i) * image.y + y + j
      (image_pixel_index, contour.data contour_pixel_index)

def update_image (image contour : ppm_image) (x y : Nat) : ppm_image :=
  { image with data := applyStores (update_image_stores image contour x y) image.data }

/-- The configuration code
`unsigned char k = 8 * grid[i][j] + 4 * grid[i][j + 1] + 2 * grid[i + 1][j + 1] + 1 * grid[i + 1][j];` -/
def march_k (grid : Grid) (i j : Nat) : Nat :=
  (8 * grid (i, j) + 4 * grid (i, j + 1) + 2 * grid (i + 1, j + 1) + 1 * grid (i + 1, j)) % 256

/-- The cells visited by `march` for worker `id`, in program order. -/
def march_cells (id P : Nat) (image : ppm_image) (step_x step_y : Nat) : List (Nat × Nat) :=
  let p := image.x / step_x
  let q := image.y / step_y
  (part_range id P p).flatMap fun i => (List.range q).map fun j => (i, j)

def march (id P : Nat) (image : ppm_image) (grid : Grid) (contour_map : Nat → ppm_image)
    (step_x step_y : Nat) : ppm_image :=
  (march_cells id P image step_x step_y).foldl
    (fun img c => update_image img (contour_map (march_k grid c.1 c.2)) (c.1 * step_x) (c.2 * step_y))
    image

/-- All pixel stores of `march` for worker `id`, in program order. -/
def march_stores (id P : Nat) (image : ppm_image) (grid : Grid) (contour_map : Nat → ppm_image)
    (step_x step_y : Nat) : List (Nat × ppm_pixel) :=
  (march_cells id P image step_x step_y).flatMap fun c =>
    update_image_stores image (contour_map (march_k grid c.1 c.2)) (c.1 * step_x) (c.2 * step_y)

/-! ## Rescaling (`rescale_image`)

`sample_bicubic` is declared in `helpers.h`; it is a parameter here.  It is
called with `u = (float)i / 2047` and `v = (float)j / 2047`, and the parameter
receives `i` and `j`. -/

/-- The calls `sample_bicubic(image, u(i), v(j), sample)` of worker `id`, in
program order, as the cells `(i, j)`. -/
def rescale_image_calls (id P : Nat) : List (Nat × Nat) :=
  (part_range id P 2048).flatMap fun i => (List.range 2048).map fun j => (i, j)

def rescale_image (sample_bicubic : ppm_image → Nat → Nat → ppm_pixel) (id P : Nat)
    (image new_image : ppm_image) : ppm_image :=
  { new_image with
    data := applyStores
      ((rescale_image_calls id P).map fun c =>
        (c.1 * new_image.y + c.2, sample_bicubic image c.1 c.2))
      new_image.data }

/-! ## Workers and `main` -/

/-- The memory the workers share: the source image, the canvas and the grid. -/
structure Shared where
  image : ppm_image
  scaled_image : ppm_image
  grid : Grid

/-- The branch test of `thread_function` and of the output selection in `main`. -/
def fits (image : ppm_image) : Prop := image.x ≤ RESCALE_X ∧ image.y ≤ RESCALE_Y

instance (image : ppm_image) : Decidable (fits image) := by unfold fits; infer_instance

/-- The image that `thread_function` samples and stamps. -/
def active_image (s : Shared) : ppm_image :=
  if fits s.image then s.image else s.scaled_image

/-- The first branch of `thread_function` (lines 217-269): worker `id` samples the source
image, then stamps it. -/
def thread_function_direct (contour_map : Nat → ppm_image) (step_x step_y P id : Nat)
    (s : Shared) : Shared :=
  let grid := sample_stage s.image step_x step_y id P s.grid
  { s with grid := grid, image := march id P s.image grid contour_map step_x step_y }

/-- The second branch of `thread_function` up to the barrier (line 274): worker `id` fills
its rows of the canvas. -/
def thread_function_rescale (sample_bicubic : ppm_image → Nat → Nat → ppm_pixel)
    (P id : Nat) (s : Shared) : Shared :=
  { s with scaled_image := rescale_image sample_bicubic id P s.image s.scaled_image }

/-- The second branch of `thread_function` after the barrier (lines 280-333): worker `id`
samples the canvas, then stamps it. -/
def thread_function_scaled (contour_map : Nat → ppm_image) (step_x step_y P id : Nat)
    (s : Shared) : Shared :=
  let grid := sample_stage s.scaled_image step_x step_y id P s.grid
  { s with
    grid := grid,
    scaled_image := march id P s.scaled_image grid contour_map step_x step_y }

/-- The canvas that `main` sets up: `new_image->x = RESCALE_X; new_image->y = RESCALE_Y;`
over a freshly allocated buffer. -/
def main_new_image (data : Nat → ppm_pixel) : ppm_image :=
  { x := RESCALE_X, y := RESCALE_Y, data := data }

/-- The grid bounds computed in `main`:
`p = min(2048, image->x) / step_x`, `q = min(2048, image->y) / step_y`. -/
def main_p (image : ppm_image) (step_x : Nat) : Nat := min 2048 image.x / step_x

def main_q (image : ppm_image) (step_y : Nat) : Nat := min 2048 image.y / step_y

/-- The cells of the grid allocated in `main`: `p + 1` rows of `q + 1` bytes. -/
def grid_allocated (image : ppm_image) (step_x step_y : Nat) (c : Nat × Nat) : Prop :=
  c.1 < main_p image step_x + 1 ∧ c.2 < main_q image step_y + 1

instance (image : ppm_image) (step_x step_y : Nat) (c : Nat × Nat) :
    Decidable (grid_allocated image step_x step_y c) := by
  unfold grid_allocated; infer_instance

/-- The buffer that `main` hands to `write_ppm`. -/
def main_output (image new_image : ppm_image) : ppm_image :=
  if fits image then image else new_image

/-! ## `thread_function`, branch by branch

The two branches are transcribed separately here, each from its own lines, over
the thread argument `struct struct_thread` (the barrier handle apart). -/

/-- The argument of `thread_function`. -/
structure struct_thread where
  id : Nat
  P : Nat
  image : ppm_image
  contour_map : Nat → ppm_image
  scaled_image : ppm_image
  step_x : Nat
  step_y : Nat
  grid : Grid

/-- The grid stores of the first branch (lines 217-266), which reads
`struct_thread->image`. -/
def branch_direct_stores (st : struct_thread) : List ((Nat × Nat) × Nat) :=
  let p := st.image.x / st.step_x
  let q := st.image.y / st.step_y
  let start2 := part_start st.id st.P p
  let end2 := part_end st.id st.P p
  let start2_noneigh := part_start st.id st.P q
  let end2_noneigh := part_end st.id st.P q
  ((List.range' start2 (end2 - start2)).flatMap fun i =>
      (List.range q).map fun j =>
        ((i, j), classify SIGMA (st.image.data (i * st.step_x * st.image.y + j * st.step_y))))
    ++ [((p, q), 0)]
    ++ ((List.range' start2 (end2 - start2)).map fun i =>
        ((i, q), classify SIGMA (st.image.data (i * st.step_x * st.image.y + st.image.x - 1))))
    ++ ((List.range' start2_noneigh (end2_noneigh - start2_noneigh)).map fun i =>
        ((p, i), classify SIGMA (st.image.data ((st.image.x - 1) * st.image.y + i * st.step_y))))

/-- The first branch (lines 217-269): the grid stores, then
`march(id, P, struct_thread->image, grid, contour_map, step_x, step_y)`. -/
def branch_direct (st : struct_thread) : struct_thread :=
  let grid := applyStores (branch_direct_stores st) st.grid
  { st with
    grid := grid,
    image := march st.id st.P st.image grid st.contour_map st.step_x st.step_y }

/-- The grid stores of the second branch after the barrier (lines 280-329), which reads
`struct_thread->scaled_image`. -/
def branch_scaled_stores (st : struct_thread) : List ((Nat × Nat) × Nat) :=
  let p := st.scaled_image.x / st.step_x
  let q := st.scaled_image.y / st.step_y
  let start2 := part_start st.id st.P p
  let end2 := part_end st.id st.P p
  let start2_noneigh := part_start st.id st.P q
  let end2_noneigh := part_end st.id st.P q
  ((List.range' start2 (end2 - start2)).flatMap fun i =>
      (List.range q).map fun j =>
        ((i, j), classify SIGMA
          (st.scaled_image.data (i * st.step_x * st.scaled_image.y + j * st.step_y))))
    ++ [((p, q), 0)]
    ++ ((List.range' start2 (end2 - start2)).map fun i =>
        ((i, q), classify SIGMA
          (st.scaled_image.data (i * st.step_x * st.scaled_image.y + st.scaled_image.x - 1))))
    ++ ((List.range' start2_noneigh (end2_noneigh - start2_noneigh)).map fun i =>
        ((p, i), classify SIGMA
          (st.scaled_image.data ((st.scaled_image.x - 1) * st.scaled_image.y + i * st.step_y))))

/-- The second branch after the barrier (lines 280-333): the grid stores, then
`march(id, P, struct_thread->scaled_image, grid, contour_map, step_x, step_y)`. -/
def branch_scaled (st : struct_thread) : struct_thread :=
  let grid := applyStores (branch_scaled_stores st) st.grid
  { st with
    grid := grid,
    scaled_image := march st.id st.P st.scaled_image grid st.contour_map st.step_x st.step_y }

/-- The calls of `sample_bicubic` that `thread_function` makes, as canvas cells: none in the
first branch, those of `rescale_image` in the second. -/
def thread_function_calls (st : struct_thread) : List (Nat × Nat) :=
  if fits st.image then [] else rescale_image_calls st.id st.P

/-- The worker `thread_function` up to the barrier wait of its second branch; the first
branch has no barrier and runs to its end. -/
def thread_function_to_barrier (sample_bicubic : ppm_image → Nat → Nat → ppm_pixel)
    (st : struct_thread) : struct_thread :=
  if fits st.image then branch_direct st
  else { st with
    scaled_image := rescale_image sample_bicubic st.id st.P st.image st.scaled_image }

/-- The worker `thread_function` from the barrier on. -/
def thread_function_from_barrier (st : struct_thread) : struct_thread :=
  if fits st.image then st else branch_scaled st

/-! ## The sequential reference `sample_grid` -/

/-- The grid stores of `sample_grid(image, step_x, step_y, sigma)`, in program order. -/
def sample_grid_stores (image : ppm_image) (step_x step_y sigma : Nat) :
    List ((Nat × Nat) × Nat) :=
  let p := image.x / step_x
  let q := image.y / step_y
  ((List.range p).flatMap fun i =>
      (List.range q).map fun j =>
        ((i, j), classify sigma (image.data (i * step_x * image.y + j * step_y))))
    ++ [((p, q), 0)]
    ++ ((List.range p).map fun i =>
        ((i, q), classify sigma (image.data (i * step_x * image.y + image.x - 1))))
    ++ ((List.range q).map fun j =>
        ((p, j), classify sigma (image.data ((image.x - 1) * image.y + j * step_y))))

/-- The grid that `sample_grid` returns; `fresh` is the content of the rows it allocates. -/
def sample_grid (image : ppm_image) (step_x step_y sigma : Nat) (fresh : Grid) : Grid :=
  applyStores (sample_grid_stores image step_x step_y sigma) fresh

/-! ## Accessed indices -/

/-- The indices into the image buffer read by the sampling stage of worker `id`, in program
order: the interior loop nest, the last-column loop, the last-row loop. -/
def sample_reads (image : ppm_image) (step_x step_y id P : Nat) : List Nat :=
  let p := image.x / step_x
  let q := image.y / step_y
  ((part_range id P p).flatMap fun i =>
      (List.range q).map fun j => i * step_x * image.y + j * step_y)
    ++ ((part_range id P p).map fun i => i * step_x * image.y + image.x - 1)
    ++ ((part_range id P q).map fun i => (image.x - 1) * image.y + i * step_y)

/-- The indices `contour_pixel_index` at which `update_image` reads `contour->data`. -/
def update_image_reads (contour : ppm_image) : List Nat :=
  (List.range contour.x).flatMap fun i =>
    (List.range contour.y).map fun j => contour.x * i + j

/-- The grid cells read by `march` for worker `id`. -/
def march_grid_reads (id P : Nat) (image : ppm_image) (step_x step_y : Nat) :
    List (Nat × Nat) :=
  (march_cells id P image step_x step_y).flatMap fun c =>
    [(c.1, c.2), (c.1, c.2 + 1), (c.1 + 1, c.2 + 1), (c.1 + 1, c.2)]

/-- The reads of tile buffers by `march` for worker `id`: the pairs of the code `k` and
the index read in `contour_map[k]->data`. -/
def march_contour_reads (id P : Nat) (image : ppm_image) (grid : Grid)
    (contour_map : Nat → ppm_image) (step_x step_y : Nat) : List (Nat × Nat) :=
  (march_cells id P image step_x step_y).flatMap fun c =>
    (update_image_reads (contour_map (march_k grid c.1 c.2))).map fun r =>
      (march_k grid c.1 c.2, r)

/-! ## Schedules -/

/-- The workers listed in `order` run the first branch of `thread_function` to completion,
one after another. -/
def run_direct (contour_map : Nat → ppm_image) (step_x step_y P : Nat) (order : List Nat)
    (s : Shared) : Shared :=
  order.foldl (fun s id => thread_function_direct contour_map step_x step_y P id s) s

/-- The workers listed in `order` all complete their sampling stage before any of them
stamps.  This is the reference schedule; `thread_function` does not enforce it (compare
`run_direct`). -/
def run_staged (contour_map : Nat → ppm_image) (step_x step_y P : Nat) (order : List Nat)
    (s : Shared) : Shared :=
  let grid := sample_all s.image step_x step_y P order s.grid
  { s with
    grid := grid,
    image := order.foldl (fun img id => march id P img grid contour_map step_x step_y) s.image }

/-- The rescale stage of the workers listed in `order`, one after another. -/
def rescale_all (sample_bicubic : ppm_image → Nat → Nat → ppm_pixel) (P : Nat)
    (order : List Nat) (image new_image : ppm_image) : ppm_image :=
  order.foldl (fun canvas id => rescale_image sample_bicubic id P image canvas) new_image

/-! ## Example inputs -/

/-- An image whose pixels all equal `px`. -/
def flat_image (x y : Nat) (px : ppm_pixel) : ppm_image :=
  { x := x, y := y, data := fun _ => px }

/-- An image of 8 rows and 16 columns, black except for the white pixel of row 0, column 7. -/
def wide_image : ppm_image :=
  { x := 8, y := 16, data := fun k => if k = 7 then ⟨255, 255, 255⟩ else ⟨0, 0, 0⟩ }

/-- A tile of 2 rows and 3 columns whose pixel at index `k` has all channels equal to `k`:
pixel `(a, b)` is stored at index `a * 3 + b`. -/
def tile_2x3 : ppm_image :=
  { x := 2, y := 3, data := fun k => ⟨k, k, k⟩ }

/-- A source of 4096 rows and 100 columns: over the limit in one dimension only. -/
def long_image : ppm_image := flat_image 4096 100 ⟨0, 0, 0⟩

/-- The shared memory that `main` sets up for `long_image`. -/
def long_shared : Shared :=
  { image := long_image, scaled_image := main_new_image (fun _ => ⟨0, 0, 0⟩), grid := fun _ => 0 }

/-- A tile set of 8 x 8 tiles: every pixel of tile `k` has all channels equal to `k`. -/
def gray_tiles (k : Nat) : ppm_image := flat_image 8 8 ⟨k, k, k⟩

/-- A black source of 16 rows and 8 columns with a canvas and a zeroed grid. -/
def tall_shared : Shared :=
  { image := flat_image 16 8 ⟨0, 0, 0⟩,
    scaled_image := main_new_image (fun _ => ⟨0, 0, 0⟩),
    grid := fun _ => 0 }

/-- A source of 16 rows and 1 column. -/
def thin_image : ppm_image := flat_image 16 1 ⟨0, 0, 0⟩

/-- A tile of 2 rows and 1 column. -/
def tile_2x1 : ppm_image :=
  { x := 2, y := 1, data := fun k => ⟨k, k, k⟩ }

/-- The shared memory for a source of 16 x 16 whose pixels all have channels 220, with a
canvas and a grid whose bytes all hold `b`. -/
def flat_shared (b : Nat) : Shared :=
  { image := flat_image 16 16 ⟨220, 220, 220⟩,
    scaled_image := main_new_image (fun _ => ⟨0, 0, 0⟩),
    grid := fun _ => b }

/-! ## Theorems -/

/-! ### The partition in integer arithmetic -/

theorem part_start_eq (id P N : Nat) : part_start id P N = id * N / P := by
  unfold part_start
  rw [← Nat.cast_mul, Nat.floor_div_eq_div]

theorem part_end_eq (id P N : Nat) : part_end id P N = min ((id + 1) * N / P) N := by
  unfold part_end
  have h : (((id : ℚ) + 1) * (N : ℚ)) = (((id + 1) * N : ℕ) : ℚ) := by push_cast; ring
  have hm : Monotone (fun q : ℚ => ⌊q⌋₊) := fun _ _ hab => Nat.floor_mono hab
  rw [h, hm.map_min]
  simp only [Nat.floor_div_eq_div, Nat.floor_natCast]

theorem part_end_of_lt {id P N : Nat} (h : id < P) :
    part_end id P N = (id + 1) * N / P := by
  rw [part_end_eq]
  apply min_eq_left
  have hP : 0 < P := by omega
  calc (id + 1) * N / P ≤ P * N / P := Nat.div_le_div_right (Nat.mul_le_mul_right N h)
    _ = N := Nat.mul_div_cancel_left N hP

theorem part_end_eq_start_succ {id P N : Nat} (h : id < P) :
    part_end id P N = part_start (id + 1) P N := by
  rw [part_end_of_lt h, part_start_eq]

theorem part_start_mono {a b : Nat} (P N : Nat) (h : a ≤ b) :
    part_start a P N ≤ part_start b P N := by
  rw [part_start_eq, part_start_eq]
  exact Nat.div_le_div_right (Nat.mul_le_mul_right N h)

theorem part_start_le_end {id P N : Nat} (h : id < P) :
    part_start id P N ≤ part_end id P N := by
  rw [part_end_eq_start_succ h]
  exact part_start_mono P N (Nat.le_succ id)

theorem part_end_le (id P N : Nat) : part_end id P N ≤ N := by
  rw [part_end_eq]
  exact min_le_right _ _

theorem mem_part_range {id P N k : Nat} (h : id < P) :
    k ∈ part_range id P N ↔ part_start id P N ≤ k ∧ k < part_end id P N := by
  have := part_start_le_end (N := N) h
  unfold part_range
  rw [List.mem_range'_1]
  omega

theorem part_owner_lt {k P N : Nat} (hk : k < N) (hP : 0 < P) : part_owner k P N < P := by
  unfold part_owner
  have hN : 0 < N := by omega
  rw [Nat.div_lt_iff_lt_mul hN]
  have h1 : (k + 1) * P ≤ N * P := Nat.mul_le_mul_right P hk
  have h2 : 0 < (k + 1) * P := Nat.mul_pos (by omega) hP
  have h3 : P * N = N * P := Nat.mul_comm P N
  omega

theorem part_owner_start {k P N : Nat} (hk : k < N) (hP : 0 < P) :
    part_start (part_owner k P N) P N ≤ k := by
  rw [part_start_eq]
  unfold part_owner
  have hN : 0 < N := by omega
  have h0 : ((k + 1) * P - 1) / N * N ≤ (k + 1) * P - 1 := Nat.div_mul_le_self _ _
  have h2 : 0 < (k + 1) * P := Nat.mul_pos (by omega) hP
  have h3 : ((k + 1) * P - 1) / N * N < (k + 1) * P := by omega
  have h4 : ((k + 1) * P - 1) / N * N / P < k + 1 := by
    rw [Nat.div_lt_iff_lt_mul hP]; exact h3
  omega

theorem part_owner_end {k P N : Nat} (hk : k < N) (hP : 0 < P) :
    k < part_end (part_owner k P N) P N := by
  rw [part_end_of_lt (part_owner_lt hk hP)]
  unfold part_owner
  have hN : 0 < N := by omega
  have h2 : 0 < (k + 1) * P := Nat.mul_pos (by omega) hP
  have h1 : (k + 1) * P - 1 < (((k + 1) * P - 1) / N + 1) * N := by
    have := Nat.lt_succ_self (((k + 1) * P - 1) / N)
    rw [Nat.div_lt_iff_lt_mul hN] at this
    exact this
  have h3 : (k + 1) * P ≤ (((k + 1) * P - 1) / N + 1) * N := by omega
  have h4 : k + 1 ≤ (((k + 1) * P - 1) / N + 1) * N / P := by
    rw [Nat.le_div_iff_mul_le hP]; exact h3
  omega

/-- Two workers whose ranges share an index are the same worker. -/
theorem part_disjoint {a b P N k : Nat} (ha : a < P) (hb : b < P)
    (hka : part_start a P N ≤ k ∧ k < part_end a P N)
    (hkb : part_start b P N ≤ k ∧ k < part_end b P N) : a = b := by
  by_contra hne
  rcases Nat.lt_or_gt_of_ne hne with hlt | hlt
  · have h1 := part_end_eq_start_succ (N := N) ha
    have h2 := part_start_mono P N (show a + 1 ≤ b from hlt)
    omega
  · have h1 := part_end_eq_start_succ (N := N) hb
    have h2 := part_start_mono P N (show b + 1 ≤ a from hlt)
    omega

/-- Every index below `N` lies in the range of exactly one worker. -/
theorem part_cover {P N k : Nat} (hP : 0 < P) (hk : k < N) :
    ∃! id, id < P ∧ part_start id P N ≤ k ∧ k < part_end id P N := by
  refine ⟨part_owner k P N, ⟨part_owner_lt hk hP, part_owner_start hk hP, part_owner_end hk hP⟩, ?_⟩
  rintro b ⟨hb, hkb⟩
  exact part_disjoint hb (part_owner_lt hk hP) hkb ⟨part_owner_start hk hP, part_owner_end hk hP⟩

/-! ### Sequences of stores -/

section Stores

variable {κ α : Type} [DecidableEq κ]

theorem applyStores_nil (m : κ → α) : applyStores [] m = m := rfl

theorem applyStores_cons (op : κ × α) (ops : List (κ × α)) (m : κ → α) :
    applyStores (op :: ops) m = applyStores ops (store m op.1 op.2) := rfl

theorem applyStores_append (ops₁ ops₂ : List (κ × α)) (m : κ → α) :
    applyStores (ops₁ ++ ops₂) m = applyStores ops₂ (applyStores ops₁ m) := by
  simp [applyStores, List.foldl_append]

/-- A key that no store names keeps its value. -/
theorem applyStores_of_not_mem (ops : List (κ × α)) (m : κ → α) (k : κ)
    (h : ∀ op ∈ ops, op.1 ≠ k) : applyStores ops m k = m k := by
  induction ops generalizing m with
  | nil => rfl
  | cons op ops ih =>
    rw [applyStores_cons, ih _ (fun o ho => h o (List.mem_cons_of_mem _ ho))]
    have hk : k ≠ op.1 := fun e => h op (List.mem_cons_self _ _) e.symm
    simp [store, hk]

/-- When every store to `k` stores `v`, and either `k` holds `v` already or some store names
`k`, then `k` holds `v` afterwards. -/
theorem applyStores_of_all (ops : List (κ × α)) (m : κ → α) (k : κ) (v : α)
    (hall : ∀ op ∈ ops, op.1 = k → op.2 = v)
    (hex : m k = v ∨ ∃ op ∈ ops, op.1 = k) : applyStores ops m k = v := by
  induction ops generalizing m with
  | nil =>
    rcases hex with h | ⟨op, hop, _⟩
    · exact h
    · cases hop
  | cons op ops ih =>
    rw [applyStores_cons]
    apply ih _ (fun o ho => hall o (List.mem_cons_of_mem _ ho))
    by_cases hk : op.1 = k
    · left
      have := hall op (List.mem_cons_self _ _) hk
      simp [store, hk, this]
    · rcases hex with h | ⟨o, ho, hok⟩
      · left
        have hk2 : k ≠ op.1 := fun e => hk e.symm
        simp [store, hk2, h]
      · right
        rcases List.mem_cons.mp ho with rfl | ho2
        · exact absurd hok hk
        · exact ⟨o, ho2, hok⟩

/-- Running the store sequences `f id` for the `id` of a list one after another is running
their concatenation. -/
theorem foldl_applyStores {ι : Type} (f : ι → List (κ × α)) (order : List ι) (m : κ → α) :
    order.foldl (fun g id => applyStores (f id) g) m = applyStores (order.flatMap f) m := by
  induction order generalizing m with
  | nil => rfl
  | cons a l ih => simp [List.foldl_cons, ih, applyStores_append]

end Stores

/-! ### Sampling -/

theorem classify_le_one (sigma : Nat) (px : ppm_pixel) : classify sigma px ≤ 1 := by
  unfold classify
  dsimp only
  split <;> omega

theorem sample_value_le_one (image : ppm_image) (step_x step_y : Nat) (c : Nat × Nat) :
    sample_value image step_x step_y c ≤ 1 := by
  unfold sample_value
  simp only
  split <;> split <;> first | exact classify_le_one _ _ | omega

/-- The stores of worker `id`, one by one. -/
theorem mem_sample_stores {image : ppm_image} {step_x step_y id P : Nat} (hid : id < P)
    (op : (Nat × Nat) × Nat) :
    op ∈ sample_stores image step_x step_y id P ↔
      (∃ i j, (part_start id P (image.x / step_x) ≤ i ∧ i < part_end id P (image.x / step_x)) ∧
          j < image.y / step_y ∧
          op = ((i, j), classify SIGMA (image.data (i * step_x * image.y + j * step_y)))) ∨
      op = ((image.x / step_x, image.y / step_y), 0) ∨
      (∃ i, (part_start id P (image.x / step_x) ≤ i ∧ i < part_end id P (image.x / step_x)) ∧
          op = ((i, image.y / step_y),
            classify SIGMA (image.data (i * step_x * image.y + image.x - 1)))) ∨
      (∃ j, (part_start id P (image.y / step_y) ≤ j ∧ j < part_end id P (image.y / step_y)) ∧
          op = ((image.x / step_x, j),
            classify SIGMA (image.data ((image.x - 1) * image.y + j * step_y)))) := by
  simp only [sample_stores, sample_interior_stores, sample_last_col_stores,
    sample_last_row_stores, List.mem_append, List.mem_flatMap, List.mem_map, List.mem_range,
    List.mem_singleton, mem_part_range hid, or_assoc]
  constructor
  · rintro (⟨i, hi, j, hj, rfl⟩ | rfl | ⟨i, hi, rfl⟩ | ⟨j, hj, rfl⟩)
    · exact Or.inl ⟨i, j, hi, hj, rfl⟩
    · exact Or.inr (Or.inl rfl)
    · exact Or.inr (Or.inr (Or.inl ⟨i, hi, rfl⟩))
    · exact Or.inr (Or.inr (Or.inr ⟨j, hj, rfl⟩))
  · rintro (⟨i, j, hi, hj, rfl⟩ | rfl | ⟨i, hi, rfl⟩ | ⟨j, hj, rfl⟩)
    · exact Or.inl ⟨i, hi, j, hj, rfl⟩
    · exact Or.inr (Or.inl rfl)
    · exact Or.inr (Or.inr (Or.inl ⟨i, hi, rfl⟩))
    · exact Or.inr (Or.inr (Or.inr ⟨j, hj, rfl⟩))

/-- Every store of the sampling stage stores the value `sample_value` of its cell, into a
cell of the `(p + 1) x (q + 1)` grid. -/
theorem sample_stores_value {image : ppm_image} {step_x step_y id P : Nat} (hid : id < P)
    {op : (Nat × Nat) × Nat} (h : op ∈ sample_stores image step_x step_y id P) :
    op.2 = sample_value image step_x step_y op.1 ∧
      op.1.1 ≤ image.x / step_x ∧ op.1.2 ≤ image.y / step_y := by
  have hp := part_end_le id P (image.x / step_x)
  have hq := part_end_le id P (image.y / step_y)
  rcases (mem_sample_stores hid op).mp h with
    ⟨i, j, hi, hj, rfl⟩ | rfl | ⟨i, hi, rfl⟩ | ⟨j, hj, rfl⟩
  · have h1 : i < image.x / step_x := by omega
    simp [sample_value, h1, hj]
    omega
  · simp [sample_value]
  · have h1 : i < image.x / step_x := by omega
    simp [sample_value, h1]
    omega
  · have h1 : j < image.y / step_y := by omega
    simp [sample_value, h1]
    omega

/-- Which workers store into cell `(i, j)`. -/
theorem mem_sample_cells {image : ppm_image} {step_x step_y id P : Nat} (hid : id < P)
    (i j : Nat) :
    (i, j) ∈ (sample_stores image step_x step_y id P).map Prod.fst ↔
      (part_start id P (image.x / step_x) ≤ i ∧ i < part_end id P (image.x / step_x) ∧
          j ≤ image.y / step_y) ∨
      (i = image.x / step_x ∧ j = image.y / step_y) ∨
      (i = image.x / step_x ∧
          part_start id P (image.y / step_y) ≤ j ∧ j < part_end id P (image.y / step_y)) := by
  have hq := part_end_le id P (image.y / step_y)
  rw [List.mem_map]
  constructor
  · rintro ⟨op, hop, hfst⟩
    rcases (mem_sample_stores hid op).mp hop with
      ⟨a, b, ha, hb, rfl⟩ | rfl | ⟨a, ha, rfl⟩ | ⟨b, hb, rfl⟩
    · simp only [Prod.mk.injEq] at hfst
      obtain ⟨rfl, rfl⟩ := hfst
      exact Or.inl ⟨ha.1, ha.2, by omega⟩
    · simp only [Prod.mk.injEq] at hfst
      obtain ⟨rfl, rfl⟩ := hfst
      exact Or.inr (Or.inl ⟨rfl, rfl⟩)
    · simp only [Prod.mk.injEq] at hfst
      obtain ⟨rfl, rfl⟩ := hfst
      exact Or.inl ⟨ha.1, ha.2, le_refl _⟩
    · simp only [Prod.mk.injEq] at hfst
      obtain ⟨rfl, rfl⟩ := hfst
      exact Or.inr (Or.inr ⟨rfl, hb.1, hb.2⟩)
  · rintro (⟨h1, h2, h3⟩ | ⟨rfl, rfl⟩ | ⟨rfl, h1, h2⟩)
    · rcases Nat.lt_or_ge j (image.y / step_y) with hj | hj
      · exact ⟨_, (mem_sample_stores hid _).mpr (Or.inl ⟨i, j, ⟨h1, h2⟩, hj, rfl⟩), rfl⟩
      · have : j = image.y / step_y := by omega
        subst this
        exact ⟨_, (mem_sample_stores hid _).mpr (Or.inr (Or.inr (Or.inl ⟨i, ⟨h1, h2⟩, rfl⟩))), rfl⟩
    · exact ⟨_, (mem_sample_stores hid _).mpr (Or.inr (Or.inl rfl)), rfl⟩
    · exact ⟨_, (mem_sample_stores hid _).mpr (Or.inr (Or.inr (Or.inr ⟨j, ⟨h1, h2⟩, rfl⟩))), rfl⟩

theorem part_range_nodup (id P N : Nat) : (part_range id P N).Nodup :=
  List.nodup_range' _ _

/-- The cells `(i, j)` of a loop nest over distinct rows are distinct. -/
theorem nodup_cells {rows : List Nat} (hrows : rows.Nodup) (q : Nat) :
    (rows.flatMap fun i => (List.range q).map fun j => (i, j)).Nodup :=
  List.Nodup.product hrows (List.nodup_range q)

theorem mem_cells {rows : List Nat} {q : Nat} (c : Nat × Nat) :
    c ∈ (rows.flatMap fun i => (List.range q).map fun j => (i, j)) ↔ c.1 ∈ rows ∧ c.2 < q := by
  obtain ⟨a, b⟩ := c
  simp only [List.mem_flatMap, List.mem_map, List.mem_range, Prod.mk.injEq]
  constructor
  · rintro ⟨i, hi, j, hj, rfl, rfl⟩
    exact ⟨hi, hj⟩
  · rintro ⟨h1, h2⟩
    exact ⟨a, h1, b, h2, rfl, rfl⟩

/-- A worker stores into each cell at most once. -/
theorem sample_cells_nodup {image : ppm_image} {step_x step_y id P : Nat} (hid : id < P) :
    ((sample_stores image step_x step_y id P).map Prod.fst).Nodup := by
  have hp := part_end_le id P (image.x / step_x)
  have hq := part_end_le id P (image.y / step_y)
  have h1 : (sample_stores image step_x step_y id P).map Prod.fst =
      ((part_range id P (image.x / step_x)).flatMap fun i =>
          (List.range (image.y / step_y)).map fun j => (i, j))
        ++ [(image.x / step_x, image.y / step_y)]
        ++ (part_range id P (image.x / step_x)).map (fun i => (i, image.y / step_y))
        ++ (part_range id P (image.y / step_y)).map (fun j => (image.x / step_x, j)) := by
    simp [sample_stores, sample_interior_stores, sample_last_col_stores,
      sample_last_row_stores, List.map_flatMap, Function.comp_def]
  rw [h1]
  have inj1 : Function.Injective (fun i : Nat => (i, image.y / step_y)) := by
    intro a b h
    simpa using h
  have inj2 : Function.Injective (fun j : Nat => (image.x / step_x, j)) := by
    intro a b h
    simpa using h
  refine List.Nodup.append (List.Nodup.append (List.Nodup.append
    (nodup_cells (part_range_nodup _ _ _) _) (List.nodup_singleton _) ?_)
    ((part_range_nodup _ _ _).map inj1) ?_) ((part_range_nodup _ _ _).map inj2) ?_
  · intro c h1 h2
    rw [mem_cells] at h1
    simp only [List.mem_singleton] at h2
    subst h2
    simp at h1
  · intro c h1 h2
    simp only [List.mem_append, mem_cells, List.mem_singleton, List.mem_map] at h1 h2
    obtain ⟨i, hi, rfl⟩ := h2
    rw [mem_part_range hid] at hi
    rcases h1 with h1 | h1
    · simp at h1
    · simp only [Prod.mk.injEq] at h1
      omega
  · intro c h1 h2
    simp only [List.mem_append, mem_cells, List.mem_singleton, List.mem_map] at h1 h2
    obtain ⟨j, hj, rfl⟩ := h2
    rw [mem_part_range hid] at hj
    rcases h1 with (h1 | h1) | ⟨i, hi, h1⟩
    · rw [mem_part_range hid] at h1
      simp only at h1
      omega
    · simp only [Prod.mk.injEq] at h1
      omega
    · rw [mem_part_range hid] at hi
      simp only [Prod.mk.injEq] at h1
      omega

/-- Every cell of the `(p + 1) x (q + 1)` grid is stored by some worker. -/
theorem sample_cell_covered (image : ppm_image) (step_x step_y : Nat) {P : Nat} (hP : 0 < P)
    {i j : Nat} (hi : i ≤ image.x / step_x) (hj : j ≤ image.y / step_y) :
    ∃ id, id < P ∧ (i, j) ∈ (sample_stores image step_x step_y id P).map Prod.fst := by
  rcases Nat.lt_or_ge i (image.x / step_x) with h | h
  · refine ⟨part_owner i P (image.x / step_x), part_owner_lt h hP, ?_⟩
    rw [mem_sample_cells (part_owner_lt h hP)]
    exact Or.inl ⟨part_owner_start h hP, part_owner_end h hP, hj⟩
  · have hi2 : i = image.x / step_x := by omega
    rcases Nat.lt_or_ge j (image.y / step_y) with h2 | h2
    · refine ⟨part_owner j P (image.y / step_y), part_owner_lt h2 hP, ?_⟩
      rw [mem_sample_cells (part_owner_lt h2 hP)]
      exact Or.inr (Or.inr ⟨hi2, part_owner_start h2 hP, part_owner_end h2 hP⟩)
    · refine ⟨0, hP, ?_⟩
      rw [mem_sample_cells hP]
      exact Or.inr (Or.inl ⟨hi2, by omega⟩)

/-- A cell other than the corner `(p, q)` is stored by at most one worker. -/
theorem sample_cell_owner_unique {image : ppm_image} {step_x step_y P a b : Nat}
    (ha : a < P) (hb : b < P) {i j : Nat}
    (hne : (i, j) ≠ (image.x / step_x, image.y / step_y))
    (hma : (i, j) ∈ (sample_stores image step_x step_y a P).map Prod.fst)
    (hmb : (i, j) ∈ (sample_stores image step_x step_y b P).map Prod.fst) : a = b := by
  rw [mem_sample_cells ha] at hma
  rw [mem_sample_cells hb] at hmb
  have hpa := part_end_le a P (image.x / step_x)
  have hpb := part_end_le b P (image.x / step_x)
  have hne2 : ¬ (i = image.x / step_x ∧ j = image.y / step_y) := by
    rintro ⟨h1, h2⟩
    exact hne (by rw [h1, h2])
  rcases hma with ⟨a1, a2, _⟩ | h | ⟨a1, a2, a3⟩
  · rcases hmb with ⟨b1, b2, _⟩ | h | ⟨b1, b2, b3⟩
    · exact part_disjoint ha hb ⟨a1, a2⟩ ⟨b1, b2⟩
    · exact absurd h hne2
    · omega
  · exact absurd h hne2
  · rcases hmb with ⟨b1, b2, _⟩ | h | ⟨b1, b2, b3⟩
    · omega
    · exact absurd h hne2
    · exact part_disjoint ha hb ⟨a2, a3⟩ ⟨b2, b3⟩

/-- After all workers have sampled, in any order, every cell of the grid holds its
`sample_value`. -/
theorem sample_all_eq (image : ppm_image) (step_x step_y : Nat) {P : Nat} (hP : 0 < P)
    {order : List Nat} (horder : order.Perm (List.range P)) (grid : Grid)
    {i j : Nat} (hi : i ≤ image.x / step_x) (hj : j ≤ image.y / step_y) :
    sample_all image step_x step_y P order grid (i, j) = sample_value image step_x step_y (i, j) := by
  have hmem : ∀ id, id ∈ order ↔ id < P := fun id => by rw [horder.mem_iff, List.mem_range]
  unfold sample_all sample_stage
  rw [foldl_applyStores]
  apply applyStores_of_all
  · intro op hop hk
    obtain ⟨id, hid, hop2⟩ := List.mem_flatMap.mp hop
    rw [← hk]
    exact (sample_stores_value ((hmem id).mp hid) hop2).1
  · right
    obtain ⟨id, hid, hc⟩ := sample_cell_covered image step_x step_y hP hi hj
    obtain ⟨op, hop, hfst⟩ := List.mem_map.mp hc
    exact ⟨op, List.mem_flatMap.mpr ⟨id, (hmem id).mpr hid, hop⟩, hfst⟩

/-- Cells outside the `(p + 1) x (q + 1)` grid are not touched by sampling. -/
theorem sample_all_frame (image : ppm_image) (step_x step_y : Nat) {P : Nat}
    {order : List Nat} (horder : order.Perm (List.range P)) (grid : Grid)
    {c : Nat × Nat} (hc : ¬ (c.1 ≤ image.x / step_x ∧ c.2 ≤ image.y / step_y)) :
    sample_all image step_x step_y P order grid c = grid c := by
  have hmem : ∀ id, id ∈ order ↔ id < P := fun id => by rw [horder.mem_iff, List.mem_range]
  unfold sample_all sample_stage
  rw [foldl_applyStores]
  apply applyStores_of_not_mem
  intro op hop hk
  obtain ⟨id, hid, hop2⟩ := List.mem_flatMap.mp hop
  have := (sample_stores_value ((hmem id).mp hid) hop2).2
  rw [hk] at this
  exact hc this

/-! ### C1 -/

/-- C1. Partition coverage: for every extent `N` and every `P >= 1`, the bounds computed by
`march`, `rescale_image` and `thread_function` are `start = id * N / P` and
`end = min ((id + 1) * N / P) N` in integer division; every range satisfies
`start <= end <= N`; two different workers share no index; the indices owned by some worker
are exactly those below `N`; and when `P > N` some worker's range is empty. -/
theorem partition_coverage (N P : Nat) (hP : 1 ≤ P) :
    (∀ id, id < P →
      part_start id P N = id * N / P ∧ part_end id P N = min ((id + 1) * N / P) N) ∧
    (∀ id, id < P → part_start id P N ≤ part_end id P N ∧ part_end id P N ≤ N) ∧
    (∀ a b, a < P → b < P → a ≠ b →
      ∀ k, ¬ (k ∈ part_range a P N ∧ k ∈ part_range b P N)) ∧
    (∀ k, (∃ id, id < P ∧ k ∈ part_range id P N) ↔ k < N) ∧
    (N < P → ∃ id, id < P ∧ part_range id P N = []) := by
  refine ⟨fun id _ => ⟨part_start_eq id P N, part_end_eq id P N⟩,
    fun id hid => ⟨part_start_le_end hid, part_end_le id P N⟩, ?_, ?_, ?_⟩
  · rintro a b ha hb hne k ⟨hka, hkb⟩
    rw [mem_part_range ha] at hka
    rw [mem_part_range hb] at hkb
    exact hne (part_disjoint ha hb hka hkb)
  · intro k
    constructor
    · rintro ⟨id, hid, hk⟩
      rw [mem_part_range hid] at hk
      have := part_end_le id P N
      omega
    · intro hk
      refine ⟨part_owner k P N, part_owner_lt hk hP, ?_⟩
      rw [mem_part_range (part_owner_lt hk hP)]
      exact ⟨part_owner_start hk hP, part_owner_end hk hP⟩
  · intro hlt
    refine ⟨0, hP, ?_⟩
    have h1 : part_start 0 P N = 0 := by rw [part_start_eq]; simp
    have h2 : part_end 0 P N = 0 := by
      rw [part_end_of_lt hP, Nat.zero_add, Nat.one_mul]
      exact Nat.div_eq_of_lt hlt
    simp [part_range, h1, h2]

theorem partition_coverage_witness :
    1 ≤ 3 ∧
    (∀ id, id < 3 →
      part_start id 3 10 = id * 10 / 3 ∧ part_end id 3 10 = min ((id + 1) * 10 / 3) 10) ∧
    (∀ id, id < 3 → part_start id 3 10 ≤ part_end id 3 10 ∧ part_end id 3 10 ≤ 10) ∧
    (∀ a b, a < 3 → b < 3 → a ≠ b →
      ∀ k, ¬ (k ∈ part_range a 3 10 ∧ k ∈ part_range b 3 10)) ∧
    (∀ k, (∃ id, id < 3 ∧ k ∈ part_range id 3 10) ↔ k < 10) ∧
    (10 < 3 → ∃ id, id < 3 ∧ part_range id 3 10 = []) :=
  ⟨by decide, partition_coverage 10 3 (by decide)⟩

/-! ### C2 -/

/-- C2. Grid edge completeness: for every active image, every `P >= 1`, every order in which
the `P` workers run their sampling stage and every initial grid content: a worker stores
into a cell at most once; every cell `(i, j)` with `i <= p`, `j <= q` other than `(p, q)` is
stored by exactly one worker; afterwards every cell of the `(p + 1) x (q + 1)` grid holds 0
or 1; and `grid[p][q] = 0`. -/
theorem grid_edge_completeness (image : ppm_image) (step_x step_y P : Nat) (hP : 1 ≤ P)
    (order : List Nat) (horder : order.Perm (List.range P)) (grid : Grid) :
    (∀ id, id < P → ((sample_stores image step_x step_y id P).map Prod.fst).Nodup) ∧
    (∀ i j, i ≤ image.x / step_x → j ≤ image.y / step_y →
      (i, j) ≠ (image.x / step_x, image.y / step_y) →
      ∃! id, id < P ∧ (i, j) ∈ (sample_stores image step_x step_y id P).map Prod.fst) ∧
    (∀ i j, i ≤ image.x / step_x → j ≤ image.y / step_y →
      sample_all image step_x step_y P order grid (i, j) = 0 ∨
      sample_all image step_x step_y P order grid (i, j) = 1) ∧
    sample_all image step_x step_y P order grid (image.x / step_x, image.y / step_y) = 0 := by
  refine ⟨fun id hid => sample_cells_nodup hid, ?_, ?_, ?_⟩
  · intro i j hi hj hne
    obtain ⟨id, hid, hmem⟩ := sample_cell_covered image step_x step_y hP hi hj
    refine ⟨id, ⟨hid, hmem⟩, ?_⟩
    rintro b ⟨hb, hmb⟩
    exact sample_cell_owner_unique hb hid hne hmb hmem
  · intro i j hi hj
    rw [sample_all_eq image step_x step_y hP horder grid hi hj]
    have := sample_value_le_one image step_x step_y (i, j)
    omega
  · rw [sample_all_eq image step_x step_y hP horder grid (le_refl _) (le_refl _)]
    simp [sample_value]

theorem grid_edge_completeness_witness :
    1 ≤ 2 ∧ [1, 0].Perm (List.range 2) ∧
    sample_all (flat_image 16 16 ⟨220, 220, 220⟩) 8 8 2 [1, 0] (fun _ => 7)
      ((flat_image 16 16 ⟨220, 220, 220⟩).x / 8, (flat_image 16 16 ⟨220, 220, 220⟩).y / 8) = 0 :=
  ⟨by decide, List.Perm.swap 0 1 [],
    (grid_edge_completeness (flat_image 16 16 ⟨220, 220, 220⟩) 8 8 2 (by decide) [1, 0]
      (List.Perm.swap 0 1 []) (fun _ => 7)).2.2.2⟩

/-! ### C3 -/

/-- C3. Threshold rule: for every active image, every `P >= 1`, every order of the workers
and every cell `(i, j)` with `i < p`, `j < q` whose sampled pixel (row `i * step_x`, column
`j * step_y`) has channels of at most 255: the channel average is at most 255; after sampling
`grid[i][j] = 1` exactly when the average is at most 200, which is exactly when
`red + green + blue <= 602`; and `grid[i][j] = 0` otherwise. -/
theorem threshold_rule (image : ppm_image) (step_x step_y P : Nat) (hP : 1 ≤ P)
    (order : List Nat) (horder : order.Perm (List.range P)) (grid : Grid) (i j : Nat)
    (hi : i < image.x / step_x) (hj : j < image.y / step_y)
    (hred : (image.data (i * step_x * image.y + j * step_y)).red ≤ 255)
    (hgreen : (image.data (i * step_x * image.y + j * step_y)).green ≤ 255)
    (hblue : (image.data (i * step_x * image.y + j * step_y)).blue ≤ 255) :
    ((image.data (i * step_x * image.y + j * step_y)).red
        + (image.data (i * step_x * image.y + j * step_y)).green
        + (image.data (i * step_x * image.y + j * step_y)).blue) / 3 ≤ 255 ∧
    (sample_all image step_x step_y P order grid (i, j) = 1 ↔
      ((image.data (i * step_x * image.y + j * step_y)).red
        + (image.data (i * step_x * image.y + j * step_y)).green
        + (image.data (i * step_x * image.y + j * step_y)).blue) / 3 ≤ 200) ∧
    (((image.data (i * step_x * image.y + j * step_y)).red
        + (image.data (i * step_x * image.y + j * step_y)).green
        + (image.data (i * step_x * image.y + j * step_y)).blue) / 3 ≤ 200 ↔
      (image.data (i * step_x * image.y + j * step_y)).red
        + (image.data (i * step_x * image.y + j * step_y)).green
        + (image.data (i * step_x * image.y + j * step_y)).blue ≤ 602) ∧
    (sample_all image step_x step_y P order grid (i, j) = 0 ↔
      ¬ ((image.data (i * step_x * image.y + j * step_y)).red
        + (image.data (i * step_x * image.y + j * step_y)).green
        + (image.data (i * step_x * image.y + j * step_y)).blue) / 3 ≤ 200) := by
  rw [sample_all_eq image step_x step_y hP horder grid (Nat.le_of_lt hi) (Nat.le_of_lt hj)]
  simp only [sample_value, hi, hj, if_true, classify, SIGMA]
  generalize (image.data (i * step_x * image.y + j * step_y)).red = r at *
  generalize (image.data (i * step_x * image.y + j * step_y)).green = g at *
  generalize (image.data (i * step_x * image.y + j * step_y)).blue = b at *
  refine ⟨by omega, ?_, by omega, ?_⟩
  · split <;> omega
  · split <;> omega

theorem threshold_rule_witness :
    1 ≤ 2 ∧ [1, 0].Perm (List.range 2) ∧
    (sample_all (flat_image 16 16 ⟨250, 250, 102⟩) 8 8 2 [1, 0] (fun _ => 7) (1, 0) = 1 ↔
      (250 + 250 + 102) / 3 ≤ 200) :=
  ⟨by decide, List.Perm.swap 0 1 [],
    (threshold_rule (flat_image 16 16 ⟨250, 250, 102⟩) 8 8 2 (by decide) [1, 0]
      (List.Perm.swap 0 1 []) (fun _ => 7) 1 0 (by decide) (by decide) (by decide) (by decide)
      (by decide)).2.1⟩

/-! ### C4 -/

/-- C4 (the code departs from the claim). On `wide_image` (8 rows, 16 columns, step 8, so
`p = 1`, `q = 2`) with one worker, sampling leaves `grid[0][q] = 0`: the last-column loop
reads index `i * step_x * image->y + image->x - 1 = 7`, the white pixel of row 0, column 7.
The pixel of row 0 in the last column (`image->y - 1 = 15`, index 15) is black and its
threshold is 1. -/
theorem last_column_reads_row_count :
    sample_all wide_image 8 8 1 [0] (fun _ => 0) (0, wide_image.y / 8) = 0 ∧
    (0 * 8 * wide_image.y + wide_image.x - 1 = 0 * wide_image.y + 7) ∧
    classify SIGMA (wide_image.data (0 * 8 * wide_image.y + (wide_image.y - 1))) = 1 := by
  refine ⟨?_, by decide, by decide⟩
  have horder : [0].Perm (List.range 1) := List.Perm.refl _
  rw [sample_all_eq wide_image 8 8 (by decide) horder _ (by decide) (le_refl _)]
  decide

/-! ### C5 -/

/-- The code of a grid whose four cells around `(i, j)` hold `a`, `b`, `c`, `d`. -/
theorem march_k_of_bits (i j a b c d : Nat) (ha : a ≤ 1) (hb : b ≤ 1) (hc : c ≤ 1) (hd : d ≤ 1) :
    march_k (fun cell => if cell = (i, j) then a else if cell = (i, j + 1) then b
        else if cell = (i + 1, j + 1) then c else if cell = (i + 1, j) then d else 0) i j
      = 8 * a + 4 * b + 2 * c + d := by
  simp [march_k]
  omega

/-- C5. Configuration code range: for every grid that is 0 or 1 on its `(p + 1) x (q + 1)`
cells and every cell `(i, j)` with `i < p`, `j < q`: the code `k` of `march` is
`8 * grid[i][j] + 4 * grid[i][j+1] + 2 * grid[i+1][j+1] + grid[i+1][j]`; it is at most 15;
its bits, from the most significant, are the top-left, top-right, bottom-right and
bottom-left corners; two binary grids with the same code at `(i, j)` have the same four
corners; and every value in `[0, 15]` is the code of a binary grid. -/
theorem configuration_code_range (image : ppm_image) (step_x step_y : Nat) (grid : Grid)
    (hbin : ∀ a b, a ≤ image.x / step_x → b ≤ image.y / step_y → grid (a, b) ≤ 1)
    (i j : Nat) (hi : i < image.x / step_x) (hj : j < image.y / step_y) :
    march_k grid i j
      = 8 * grid (i, j) + 4 * grid (i, j + 1) + 2 * grid (i + 1, j + 1) + grid (i + 1, j) ∧
    march_k grid i j ≤ 15 ∧
    (march_k grid i j / 8 = grid (i, j) ∧ march_k grid i j / 4 % 2 = grid (i, j + 1) ∧
      march_k grid i j / 2 % 2 = grid (i + 1, j + 1) ∧ march_k grid i j % 2 = grid (i + 1, j)) ∧
    (∀ grid' : Grid,
      (∀ a b, a ≤ image.x / step_x → b ≤ image.y / step_y → grid' (a, b) ≤ 1) →
      march_k grid' i j = march_k grid i j →
      grid' (i, j) = grid (i, j) ∧ grid' (i, j + 1) = grid (i, j + 1) ∧
        grid' (i + 1, j + 1) = grid (i + 1, j + 1) ∧ grid' (i + 1, j) = grid (i + 1, j)) ∧
    (∀ k, k ≤ 15 → ∃ grid' : Grid, (∀ cell, grid' cell ≤ 1) ∧ march_k grid' i j = k) := by
  have h1 := hbin i j (by omega) (by omega)
  have h2 := hbin i (j + 1) (by omega) (by omega)
  have h3 := hbin (i + 1) (j + 1) (by omega) (by omega)
  have h4 := hbin (i + 1) j (by omega) (by omega)
  refine ⟨?_, ?_, ?_, ?_, ?_⟩
  · unfold march_k; omega
  · unfold march_k; omega
  · unfold march_k; omega
  · intro grid' hbin' heq
    have g1 := hbin' i j (by omega) (by omega)
    have g2 := hbin' i (j + 1) (by omega) (by omega)
    have g3 := hbin' (i + 1) (j + 1) (by omega) (by omega)
    have g4 := hbin' (i + 1) j (by omega) (by omega)
    unfold march_k at heq
    omega
  · intro k hk
    refine ⟨fun cell => if cell = (i, j) then k / 8 else if cell = (i, j + 1) then k / 4 % 2
        else if cell = (i + 1, j + 1) then k / 2 % 2 else if cell = (i + 1, j) then k % 2 else 0,
      ?_, ?_⟩
    · intro cell
      dsimp only
      split_ifs <;> omega
    · rw [march_k_of_bits i j _ _ _ _ (by omega) (by omega) (by omega) (by omega)]
      omega

theorem configuration_code_range_witness :
    (∀ a b, a ≤ (flat_image 16 16 ⟨0, 0, 0⟩).x / 8 → b ≤ (flat_image 16 16 ⟨0, 0, 0⟩).y / 8 →
      (fun c : Nat × Nat => if c = (1, 1) then 1 else 0) (a, b) ≤ 1) ∧
    1 < (flat_image 16 16 ⟨0, 0, 0⟩).x / 8 ∧ 0 < (flat_image 16 16 ⟨0, 0, 0⟩).y / 8 ∧
    march_k (fun c : Nat × Nat => if c = (1, 1) then 1 else 0) 1 0 ≤ 15 :=
  ⟨fun a b _ _ => by dsimp only; split_ifs <;> omega, by decide, by decide,
    (configuration_code_range (flat_image 16 16 ⟨0, 0, 0⟩) 8 8
      (fun c : Nat × Nat => if c = (1, 1) then 1 else 0)
      (fun a b _ _ => by dsimp only; split_ifs <;> omega) 1 0 (by decide) (by decide)).2.1⟩

/-! ### C6 -/

/-- C6 (the code departs from the claim). `update_image` stamps `tile_2x3` (2 rows, 3
columns) at offset `(0, 0)` of a black image of 8 rows and 8 columns.  The image pixel at
`(0 + 1, 0 + 0)`, index `1 * 8 + 0`, receives `contour->data[contour->x * 1 + 0]`, the entry
at index 2, which is the tile pixel `(0, 2)`; the tile pixel `(1, 0)` is the entry at
index `1 * 3 + 0 = 3`. -/
theorem update_image_reads_row_count :
    (update_image (flat_image 8 8 ⟨0, 0, 0⟩) tile_2x3 0 0).data ((0 + 1) * 8 + (0 + 0))
      = tile_2x3.data (0 * tile_2x3.y + 2) ∧
    (update_image (flat_image 8 8 ⟨0, 0, 0⟩) tile_2x3 0 0).data ((0 + 1) * 8 + (0 + 0))
      ≠ tile_2x3.data (1 * tile_2x3.y + 0) := by
  constructor <;> decide

/-! ### C7 -/

theorem update_image_y (image contour : ppm_image) (x y : Nat) :
    (update_image image contour x y).y = image.y := rfl

theorem update_image_x (image contour : ppm_image) (x y : Nat) :
    (update_image image contour x y).x = image.x := rfl

/-- The stores of `update_image` depend on the image through its row stride only. -/
theorem update_image_stores_congr {image image' : ppm_image} (h : image'.y = image.y)
    (contour : ppm_image) (x y : Nat) :
    update_image_stores image' contour x y = update_image_stores image contour x y := by
  unfold update_image_stores
  rw [h]

/-- The loop of `march`, started from any image of the same row stride. -/
theorem march_fold (image : ppm_image) (grid : Grid) (contour_map : Nat → ppm_image)
    (step_x step_y : Nat) (cells : List (Nat × Nat)) (img : ppm_image)
    (hy : img.y = image.y) (hx : img.x = image.x) :
    (cells.foldl (fun img c => update_image img (contour_map (march_k grid c.1 c.2))
        (c.1 * step_x) (c.2 * step_y)) img).y = image.y ∧
    (cells.foldl (fun img c => update_image img (contour_map (march_k grid c.1 c.2))
        (c.1 * step_x) (c.2 * step_y)) img).x = image.x ∧
    (cells.foldl (fun img c => update_image img (contour_map (march_k grid c.1 c.2))
        (c.1 * step_x) (c.2 * step_y)) img).data =
      applyStores (cells.flatMap fun c => update_image_stores image
        (contour_map (march_k grid c.1 c.2)) (c.1 * step_x) (c.2 * step_y)) img.data := by
  induction cells generalizing img with
  | nil => exact ⟨hy, hx, rfl⟩
  | cons c cells ih =>
    simp only [List.foldl_cons, List.flatMap_cons, applyStores_append]
    have := ih (update_image img (contour_map (march_k grid c.1 c.2)) (c.1 * step_x)
      (c.2 * step_y)) hy hx
    refine ⟨this.1, this.2.1, ?_⟩
    rw [this.2.2]
    simp only [update_image, update_image_stores_congr hy]

/-- What `march` does to the pixel buffer is to perform `march_stores`. -/
theorem march_data (id P : Nat) (image : ppm_image) (grid : Grid)
    (contour_map : Nat → ppm_image) (step_x step_y : Nat) :
    (march id P image grid contour_map step_x step_y).data =
      applyStores (march_stores id P image grid contour_map step_x step_y) image.data :=
  (march_fold image grid contour_map step_x step_y _ image rfl rfl).2.2

theorem march_y (id P : Nat) (image : ppm_image) (grid : Grid)
    (contour_map : Nat → ppm_image) (step_x step_y : Nat) :
    (march id P image grid contour_map step_x step_y).y = image.y :=
  (march_fold image grid contour_map step_x step_y _ image rfl rfl).1

theorem march_x (id P : Nat) (image : ppm_image) (grid : Grid)
    (contour_map : Nat → ppm_image) (step_x step_y : Nat) :
    (march id P image grid contour_map step_x step_y).x = image.x :=
  (march_fold image grid contour_map step_x step_y _ image rfl rfl).2.1

theorem mem_update_image_stores {image contour : ppm_image} {x y : Nat}
    (op : Nat × ppm_pixel) :
    op ∈ update_image_stores image contour x y ↔
      ∃ a b, a < contour.x ∧ b < contour.y ∧
        op = ((x + a) * image.y + y + b, contour.data (contour.x * a + b)) := by
  simp only [update_image_stores, List.mem_flatMap, List.mem_map, List.mem_range]
  constructor
  · rintro ⟨a, ha, b, hb, rfl⟩
    exact ⟨a, b, ha, hb, rfl⟩
  · rintro ⟨a, b, ha, hb, rfl⟩
    exact ⟨a, ha, b, hb, rfl⟩

/-- The stores of `march`, one by one: cell `(i, j)` of the worker's rows, tile offset
`(a, b)` inside the tile chosen by the code of that cell. -/
theorem mem_march_stores {id P : Nat} (hid : id < P) {image : ppm_image} {grid : Grid}
    {contour_map : Nat → ppm_image} {step_x step_y : Nat} (op : Nat × ppm_pixel) :
    op ∈ march_stores id P image grid contour_map step_x step_y ↔
      ∃ i j a b,
        (part_start id P (image.x / step_x) ≤ i ∧ i < part_end id P (image.x / step_x)) ∧
        j < image.y / step_y ∧
        a < (contour_map (march_k grid i j)).x ∧ b < (contour_map (march_k grid i j)).y ∧
        op = ((i * step_x + a) * image.y + j * step_y + b,
          (contour_map (march_k grid i j)).data ((contour_map (march_k grid i j)).x * a + b)) := by
  unfold march_stores march_cells
  rw [List.mem_flatMap]
  constructor
  · rintro ⟨⟨i, j⟩, hc, hop⟩
    rw [mem_cells, mem_part_range hid] at hc
    obtain ⟨a, b, ha, hb, rfl⟩ := (mem_update_image_stores op).mp hop
    exact ⟨i, j, a, b, hc.1, hc.2, ha, hb, rfl⟩
  · rintro ⟨i, j, a, b, hi, hj, ha, hb, rfl⟩
    refine ⟨(i, j), ?_, (mem_update_image_stores _).mpr ⟨a, b, ha, hb, rfl⟩⟩
    rw [mem_cells, mem_part_range hid]
    exact ⟨hi, hj⟩

/-- The code of a cell of a binary grid selects one of the 16 tiles. -/
theorem march_k_lt {grid : Grid} {p q i j : Nat}
    (hbin : ∀ a b, a ≤ p → b ≤ q → grid (a, b) ≤ 1) (hi : i < p) (hj : j < q) :
    march_k grid i j < 16 := by
  have h1 := hbin i j (by omega) (by omega)
  have h2 := hbin i (j + 1) (by omega) (by omega)
  have h3 := hbin (i + 1) (j + 1) (by omega) (by omega)
  have h4 := hbin (i + 1) j (by omega) (by omega)
  unfold march_k
  omega

/-- The row of a pixel index written for cell `(i, j)` at tile offset `(a, b)`, when the
tile is at most `step_x x step_y`. -/
theorem stamp_row {Y step_x step_y i j a b w h : Nat} (hj : j < Y / step_y)
    (ha : a < w) (hb : b < h) (hw : w ≤ step_x) (hh : h ≤ step_y) :
    ((i * step_x + a) * Y + j * step_y + b) / Y = i * step_x + a ∧
    ((i * step_x + a) * Y + j * step_y + b) % Y = j * step_y + b ∧
    i * step_x ≤ i * step_x + a ∧ i * step_x + a < (i + 1) * step_x ∧
    j * step_y + b < Y := by
  have h1 : Y / step_y * step_y ≤ Y := Nat.div_mul_le_self Y step_y
  have h2 : (j + 1) * step_y ≤ Y / step_y * step_y := Nat.mul_le_mul_right step_y hj
  have h3 : (j + 1) * step_y = j * step_y + step_y := by ring
  have h4 : (i + 1) * step_x = i * step_x + step_x := by ring
  have hc : j * step_y + b < Y := by omega
  have hY : 0 < Y := by omega
  have e : (i * step_x + a) * Y + j * step_y + b = (j * step_y + b) + Y * (i * step_x + a) := by
    ring
  refine ⟨?_, ?_, by omega, by omega, hc⟩
  · rw [e, Nat.add_mul_div_left _ _ hY, Nat.div_eq_of_lt hc, Nat.zero_add]
  · rw [e, Nat.add_mul_mod_self_left, Nat.mod_eq_of_lt hc]

/-- Every store of `march` lands in a row of the worker's own band, inside the image. -/
theorem march_store_row {id P : Nat} (hid : id < P) {image : ppm_image} {grid : Grid}
    {contour_map : Nat → ppm_image} {step_x step_y : Nat}
    (hbin : ∀ a b, a ≤ image.x / step_x → b ≤ image.y / step_y → grid (a, b) ≤ 1)
    (htiles : ∀ k, k < 16 → (contour_map k).x ≤ step_x ∧ (contour_map k).y ≤ step_y)
    {op : Nat × ppm_pixel} (hop : op ∈ march_stores id P image grid contour_map step_x step_y) :
    part_start id P (image.x / step_x) * step_x ≤ op.1 / image.y ∧
      op.1 / image.y < part_end id P (image.x / step_x) * step_x := by
  obtain ⟨i, j, a, b, hi, hj, ha, hb, rfl⟩ := (mem_march_stores hid op).mp hop
  have hp := part_end_le id P (image.x / step_x)
  have hk := march_k_lt hbin (show i < image.x / step_x by omega) hj
  obtain ⟨hw, hh⟩ := htiles _ hk
  obtain ⟨r1, _, r3, r4, _⟩ := stamp_row (i := i) hj ha hb hw hh
  simp only
  rw [r1]
  have l1 : part_start id P (image.x / step_x) * step_x ≤ i * step_x :=
    Nat.mul_le_mul_right step_x hi.1
  have l2 : (i + 1) * step_x ≤ part_end id P (image.x / step_x) * step_x :=
    Nat.mul_le_mul_right step_x hi.2
  omega

/-- The row bands of two different workers are disjoint. -/
theorem band_disjoint {a b P N step_x r : Nat} (ha : a < P) (hb : b < P) (hne : a ≠ b)
    (hra : part_start a P N * step_x ≤ r ∧ r < part_end a P N * step_x)
    (hrb : part_start b P N * step_x ≤ r ∧ r < part_end b P N * step_x) : False := by
  rcases Nat.lt_or_gt_of_ne hne with hlt | hlt
  · have h1 := part_end_eq_start_succ (N := N) ha
    have h2 := part_start_mono P N (show a + 1 ≤ b from hlt)
    have h3 : part_end a P N * step_x ≤ part_start b P N * step_x :=
      Nat.mul_le_mul_right step_x (by omega)
    omega
  · have h1 := part_end_eq_start_succ (N := N) hb
    have h2 := part_start_mono P N (show b + 1 ≤ a from hlt)
    have h3 : part_end b P N * step_x ≤ part_start a P N * step_x :=
      Nat.mul_le_mul_right step_x (by omega)
    omega

/-- C7. Stamping writes stay in the worker's own rows: for every `id < P`, every grid that is
binary on its `(p + 1) x (q + 1)` cells and every tile set whose 16 tiles are at most
`step_x x step_y`: every store of `march` goes to a pixel whose row `index / image.y` lies in
`[start2 * step_x, end2 * step_x)`; a pixel that `march` changes has its row in that band;
`march` leaves the dimensions alone; and no pixel index stored by worker `id` is stored by
another worker `id'` (whatever binary grid and pixel data that worker sees). -/
theorem march_writes_own_rows (id P : Nat) (hid : id < P) (image : ppm_image) (grid : Grid)
    (contour_map : Nat → ppm_image) (step_x step_y : Nat)
    (hbin : ∀ a b, a ≤ image.x / step_x → b ≤ image.y / step_y → grid (a, b) ≤ 1)
    (htiles : ∀ k, k < 16 → (contour_map k).x ≤ step_x ∧ (contour_map k).y ≤ step_y) :
    (∀ op, op ∈ march_stores id P image grid contour_map step_x step_y →
      part_start id P (image.x / step_x) * step_x ≤ op.1 / image.y ∧
        op.1 / image.y < part_end id P (image.x / step_x) * step_x) ∧
    (∀ idx, (march id P image grid contour_map step_x step_y).data idx ≠ image.data idx →
      part_start id P (image.x / step_x) * step_x ≤ idx / image.y ∧
        idx / image.y < part_end id P (image.x / step_x) * step_x) ∧
    ((march id P image grid contour_map step_x step_y).x = image.x ∧
      (march id P image grid contour_map step_x step_y).y = image.y) ∧
    (∀ id' (image' : ppm_image) (grid' : Grid), id' < P → id' ≠ id →
      image'.x = image.x → image'.y = image.y →
      (∀ a b, a ≤ image.x / step_x → b ≤ image.y / step_y → grid' (a, b) ≤ 1) →
      ∀ op, op ∈ march_stores id P image grid contour_map step_x step_y →
      ∀ op', op' ∈ march_stores id' P image' grid' contour_map step_x step_y →
        op.1 ≠ op'.1) := by
  refine ⟨fun op hop => march_store_row hid hbin htiles hop, ?_,
    ⟨march_x _ _ _ _ _ _ _, march_y _ _ _ _ _ _ _⟩, ?_⟩
  · intro idx hne
    by_contra hband
    apply hne
    rw [march_data]
    apply applyStores_of_not_mem
    intro op hop hk
    apply hband
    rw [← hk]
    exact march_store_row hid hbin htiles hop
  · intro id' image' grid' hid' hne hx hy hbin' op hop op' hop' heq
    have h1 := march_store_row hid hbin htiles hop
    have hbin2 : ∀ a b, a ≤ image'.x / step_x → b ≤ image'.y / step_y → grid' (a, b) ≤ 1 := by
      rw [hx, hy]; exact hbin'
    have h2 := march_store_row hid' hbin2 htiles hop'
    rw [hx, hy, ← heq] at h2
    exact band_disjoint hid' hid hne h2 h1

theorem march_writes_own_rows_witness :
    0 < 2 ∧
    (∀ idx, (march 0 2 (flat_image 16 16 ⟨9, 9, 9⟩) (fun _ => 0)
        (fun _ => flat_image 8 8 ⟨1, 2, 3⟩) 8 8).data idx
        ≠ (flat_image 16 16 ⟨9, 9, 9⟩).data idx →
      part_start 0 2 ((flat_image 16 16 ⟨9, 9, 9⟩).x / 8) * 8
          ≤ idx / (flat_image 16 16 ⟨9, 9, 9⟩).y ∧
        idx / (flat_image 16 16 ⟨9, 9, 9⟩).y
          < part_end 0 2 ((flat_image 16 16 ⟨9, 9, 9⟩).x / 8) * 8) :=
  ⟨by decide,
    (march_writes_own_rows 0 2 (by decide) (flat_image 16 16 ⟨9, 9, 9⟩) (fun _ => 0)
      (fun _ => flat_image 8 8 ⟨1, 2, 3⟩) 8 8 (fun _ _ _ _ => Nat.zero_le 1)
      (fun _ _ => ⟨Nat.le_refl 8, Nat.le_refl 8⟩)).2.1⟩

/-! ### C8 -/

/-- When the source fits in both dimensions, or exceeds the limit in both, the bounds of
`main` are those of the active image. -/
theorem grid_allocation_matches (s : Shared) (step_x step_y : Nat)
    (hcanvas : s.scaled_image.x = RESCALE_X ∧ s.scaled_image.y = RESCALE_Y)
    (h : fits s.image ∨ (RESCALE_X < s.image.x ∧ RESCALE_Y < s.image.y)) :
    main_p s.image step_x = (active_image s).x / step_x ∧
      main_q s.image step_y = (active_image s).y / step_y := by
  unfold main_p main_q active_image
  rcases h with h | h
  · rw [if_pos h]
    unfold fits RESCALE_X RESCALE_Y at h
    rw [Nat.min_eq_right h.1, Nat.min_eq_right h.2]
    exact ⟨rfl, rfl⟩
  · have hnot : ¬ fits s.image := by
      unfold fits
      omega
    rw [if_neg hnot, hcanvas.1, hcanvas.2]
    unfold RESCALE_X RESCALE_Y at *
    rw [Nat.min_eq_left (by omega), Nat.min_eq_left (by omega)]
    exact ⟨rfl, rfl⟩

/-- C8 (the code departs from the claim). For `long_image` (4096 rows, 100 columns) `main`
allocates a grid of `2048 / 8 + 1 = 257` rows of `100 / 8 + 1 = 13` bytes, while
`thread_function` takes the rescaled branch and works on the 2048 x 2048 canvas with
`p = q = 256`, a grid of 257 x 257 cells: the single worker of `P = 1` stores into
`grid[0][256]`, which is outside the allocated row. -/
theorem grid_allocation_one_dimension_over :
    ¬ fits long_shared.image ∧
    (main_p long_shared.image STEP + 1 = 257 ∧ main_q long_shared.image STEP + 1 = 13) ∧
    ((active_image long_shared).x / STEP + 1 = 257 ∧
      (active_image long_shared).y / STEP + 1 = 257) ∧
    (0, 256) ∈ (sample_stores (active_image long_shared) STEP STEP 0 1).map Prod.fst ∧
    ¬ grid_allocated long_shared.image STEP STEP (0, 256) := by
  refine ⟨by decide, ⟨by decide, by decide⟩, ⟨by decide, by decide⟩, ?_, by decide⟩
  rw [mem_sample_cells (by decide)]
  left
  rw [part_start_eq, part_end_eq]
  decide

/-! ### C9 -/

theorem part_range_eq (id P N : Nat) :
    part_range id P N = List.range' (id * N / P) (min ((id + 1) * N / P) N - id * N / P) := by
  rw [part_range, part_start_eq, part_end_eq]

/-- C9 (the code departs from the claim). Two workers, a black source of 16 rows and 8
columns (`p = 2`, `q = 1`), 8 x 8 tiles, a zeroed grid.  When worker 0 runs before worker 1,
its `march` reads `grid[1][0]` and `grid[1][1]` before worker 1 has sampled them and stamps
tile 12 at pixel 0; when worker 1 runs first, worker 0 stamps tile 15 there, which is also
what sampling everything before stamping gives. -/
theorem worker_order_changes_image :
    fits tall_shared.image ∧
    (run_direct gray_tiles 8 8 2 [0, 1] tall_shared).image.data 0 = ⟨12, 12, 12⟩ ∧
    (run_direct gray_tiles 8 8 2 [1, 0] tall_shared).image.data 0 = ⟨15, 15, 15⟩ ∧
    (run_staged gray_tiles 8 8 2 [0, 1] tall_shared).image.data 0 = ⟨15, 15, 15⟩ := by
  refine ⟨by decide, ?_, ?_, ?_⟩
  · simp only [run_direct, List.foldl_cons, List.foldl_nil, thread_function_direct,
      sample_stage, sample_stores, sample_interior_stores, sample_last_col_stores,
      sample_last_row_stores, march, march_cells, part_range_eq]
    decide
  · simp only [run_direct, List.foldl_cons, List.foldl_nil, thread_function_direct,
      sample_stage, sample_stores, sample_interior_stores, sample_last_col_stores,
      sample_last_row_stores, march, march_cells, part_range_eq]
    decide
  · simp only [run_staged, sample_all, List.foldl_cons, List.foldl_nil, sample_stage,
      sample_stores, sample_interior_stores, sample_last_col_stores,
      sample_last_row_stores, march, march_cells, part_range_eq]
    decide

/-! ### C10 -/

/-- Row-major addressing with stride `Y` is injective on columns below `Y`. -/
theorem rowmajor_inj {Y i j i' j' : Nat} (hj : j < Y) (hj' : j' < Y)
    (h : i * Y + j = i' * Y + j') : i = i' ∧ j = j' := by
  have hY : 0 < Y := by omega
  have e1 : (i * Y + j) / Y = i := by
    rw [Nat.add_comm, Nat.mul_comm, Nat.add_mul_div_left _ _ hY, Nat.div_eq_of_lt hj, Nat.zero_add]
  have e2 : (i' * Y + j') / Y = i' := by
    rw [Nat.add_comm, Nat.mul_comm, Nat.add_mul_div_left _ _ hY, Nat.div_eq_of_lt hj', Nat.zero_add]
  have hi : i = i' := by rw [← e1, ← e2, h]
  subst hi
  exact ⟨rfl, by omega⟩

theorem mem_rescale_image_calls {id P : Nat} (hid : id < P) (i j : Nat) :
    (i, j) ∈ rescale_image_calls id P ↔
      part_start id P 2048 ≤ i ∧ i < part_end id P 2048 ∧ j < 2048 := by
  unfold rescale_image_calls
  rw [mem_cells, mem_part_range hid]
  simp only [and_assoc]

theorem rescale_image_y (sample_bicubic : ppm_image → Nat → Nat → ppm_pixel) (id P : Nat)
    (image new_image : ppm_image) :
    (rescale_image sample_bicubic id P image new_image).y = new_image.y := rfl

theorem rescale_image_x (sample_bicubic : ppm_image → Nat → Nat → ppm_pixel) (id P : Nat)
    (image new_image : ppm_image) :
    (rescale_image sample_bicubic id P image new_image).x = new_image.x := rfl

/-- The loop over the workers, started from any canvas. -/
theorem rescale_all_fold (sample_bicubic : ppm_image → Nat → Nat → ppm_pixel) (P : Nat)
    (order : List Nat) (image canvas : ppm_image) :
    (rescale_all sample_bicubic P order image canvas).x = canvas.x ∧
    (rescale_all sample_bicubic P order image canvas).y = canvas.y ∧
    (rescale_all sample_bicubic P order image canvas).data =
      applyStores (order.flatMap fun id => (rescale_image_calls id P).map fun c =>
        (c.1 * canvas.y + c.2, sample_bicubic image c.1 c.2)) canvas.data := by
  unfold rescale_all
  induction order generalizing canvas with
  | nil => exact ⟨rfl, rfl, rfl⟩
  | cons id order ih =>
    simp only [List.foldl_cons, List.flatMap_cons, applyStores_append]
    have := ih (rescale_image sample_bicubic id P image canvas)
    rw [rescale_image_x, rescale_image_y] at this
    exact ⟨this.1, this.2.1, this.2.2⟩

/-- A store sequence that writes `f c` to the row-major index of each cell `c` of `cells`
leaves `f (i, j)` at the index of a listed cell `(i, j)`. -/
theorem applyStores_rowmajor {Y : Nat} (cells : List (Nat × Nat)) (f : Nat × Nat → ppm_pixel)
    (m : Nat → ppm_pixel) (hcells : ∀ c ∈ cells, c.2 < Y) {i j : Nat} (hj : j < Y) :
    ((i, j) ∈ cells →
      applyStores (cells.map fun c => (c.1 * Y + c.2, f c)) m (i * Y + j) = f (i, j)) ∧
    ((i, j) ∉ cells →
      applyStores (cells.map fun c => (c.1 * Y + c.2, f c)) m (i * Y + j) = m (i * Y + j)) := by
  constructor
  · intro hmem
    apply applyStores_of_all
    · intro op hop hk
      obtain ⟨c, hc, rfl⟩ := List.mem_map.mp hop
      obtain ⟨h1, h2⟩ := rowmajor_inj (hcells c hc) hj hk
      have : c = (i, j) := Prod.ext h1 h2
      rw [this]
    · exact Or.inr ⟨_, List.mem_map.mpr ⟨(i, j), hmem, rfl⟩, rfl⟩
  · intro hnot
    apply applyStores_of_not_mem
    intro op hop hk
    obtain ⟨c, hc, rfl⟩ := List.mem_map.mp hop
    obtain ⟨h1, h2⟩ := rowmajor_inj (hcells c hc) hj hk
    have : c = (i, j) := Prod.ext h1 h2
    exact hnot (this ▸ hc)

theorem rescale_image_calls_col {id P : Nat} (c : Nat × Nat)
    (hc : c ∈ rescale_image_calls id P) : c.2 < 2048 := by
  unfold rescale_image_calls at hc
  rw [mem_cells] at hc
  exact hc.2

/-- C10. Rescale partition: when the source exceeds 2048 in either dimension, for every
`P >= 1` and every order in which the workers run `rescale_image` on the canvas set up by
`main`: worker `id` calls `sample_bicubic` exactly once for each cell `(i, j)` with `i` in its
partition of the 2048 rows and `j < 2048`, and for no other cell; it leaves the result in
canvas cell `(i, j)` and leaves the other canvas cells alone; every canvas cell is written by
exactly one worker; once all workers are done every cell `(i, j)` holds the sample for
`(i, j)`; the canvas is 2048 x 2048 and is what `main` writes out; and for `P = 4` worker
`id` owns the rows `[512 * id, 512 * id + 512)`. -/
theorem rescale_partition (sample_bicubic : ppm_image → Nat → Nat → ppm_pixel)
    (image : ppm_image) (data : Nat → ppm_pixel) (P : Nat) (hP : 1 ≤ P)
    (hbig : RESCALE_X < image.x ∨ RESCALE_Y < image.y)
    (order : List Nat) (horder : order.Perm (List.range P)) :
    (∀ id, id < P →
      (rescale_image_calls id P).Nodup ∧
      ∀ i j, (i, j) ∈ rescale_image_calls id P ↔
        part_start id P 2048 ≤ i ∧ i < part_end id P 2048 ∧ j < 2048) ∧
    (∀ id, id < P → ∀ i j, i < 2048 → j < 2048 →
      ((i, j) ∈ rescale_image_calls id P →
        (rescale_image sample_bicubic id P image (main_new_image data)).data (i * 2048 + j)
          = sample_bicubic image i j) ∧
      ((i, j) ∉ rescale_image_calls id P →
        (rescale_image sample_bicubic id P image (main_new_image data)).data (i * 2048 + j)
          = data (i * 2048 + j))) ∧
    (∀ i j, i < 2048 → j < 2048 → ∃! id, id < P ∧ (i, j) ∈ rescale_image_calls id P) ∧
    (∀ i j, i < 2048 → j < 2048 →
      (rescale_all sample_bicubic P order image (main_new_image data)).data (i * 2048 + j)
        = sample_bicubic image i j) ∧
    ((rescale_all sample_bicubic P order image (main_new_image data)).x = 2048 ∧
      (rescale_all sample_bicubic P order image (main_new_image data)).y = 2048) ∧
    main_output image (rescale_all sample_bicubic P order image (main_new_image data))
      = rescale_all sample_bicubic P order image (main_new_image data) ∧
    (∀ id, id < 4 → part_start id 4 2048 = 512 * id ∧ part_end id 4 2048 = 512 * id + 512) := by
  have hmem : ∀ id, id ∈ order ↔ id < P := fun id => by rw [horder.mem_iff, List.mem_range]
  refine ⟨?_, ?_, ?_, ?_, ?_, ?_, ?_⟩
  · intro id hid
    exact ⟨nodup_cells (part_range_nodup _ _ _) _, fun i j => mem_rescale_image_calls hid i j⟩
  · intro id _ i j _ hj
    exact applyStores_rowmajor (rescale_image_calls id P)
      (fun c => sample_bicubic image c.1 c.2) data
      (fun c hc => rescale_image_calls_col c hc) hj
  · intro i j hi hj
    obtain ⟨id, ⟨hid, h1, h2⟩, huniq⟩ := part_cover (P := P) (N := 2048) (by omega) hi
    refine ⟨id, ⟨hid, (mem_rescale_image_calls hid i j).mpr ⟨h1, h2, hj⟩⟩, ?_⟩
    rintro b ⟨hb, hmb⟩
    rw [mem_rescale_image_calls hb] at hmb
    exact huniq b ⟨hb, hmb.1, hmb.2.1⟩
  · intro i j hi hj
    rw [(rescale_all_fold sample_bicubic P order image (main_new_image data)).2.2]
    apply applyStores_of_all
    · intro op hop hk
      obtain ⟨id, _, hop2⟩ := List.mem_flatMap.mp hop
      obtain ⟨c, hc, rfl⟩ := List.mem_map.mp hop2
      obtain ⟨h1, h2⟩ := rowmajor_inj (rescale_image_calls_col c hc) hj hk
      simp only [h1, h2]
    · right
      obtain ⟨id, ⟨hid, h1, h2⟩, _⟩ := part_cover (P := P) (N := 2048) (by omega) hi
      refine ⟨((i, j).1 * (main_new_image data).y + (i, j).2, sample_bicubic image i j), ?_, rfl⟩
      refine List.mem_flatMap.mpr ⟨id, (hmem id).mpr hid, ?_⟩
      exact List.mem_map.mpr ⟨(i, j), (mem_rescale_image_calls hid i j).mpr ⟨h1, h2, hj⟩, rfl⟩
  · exact ⟨(rescale_all_fold sample_bicubic P order image (main_new_image data)).1,
      (rescale_all_fold sample_bicubic P order image (main_new_image data)).2.1⟩
  · unfold main_output
    have hnot : ¬ fits image := by
      unfold fits
      omega
    rw [if_neg hnot]
  · intro id hid
    rw [part_start_eq, part_end_eq]
    omega

theorem rescale_partition_witness :
    1 ≤ 4 ∧ (RESCALE_X < (flat_image 4096 2048 ⟨0, 0, 0⟩).x ∨
      RESCALE_Y < (flat_image 4096 2048 ⟨0, 0, 0⟩).y) ∧
    [3, 2, 1, 0].Perm (List.range 4) ∧
    (∀ i j, i < 2048 → j < 2048 → ∃! id, id < 4 ∧ (i, j) ∈ rescale_image_calls id 4) :=
  ⟨by decide, Or.inl (by decide), by decide,
    (rescale_partition (fun _ i j => ⟨i % 256, j % 256, 0⟩) (flat_image 4096 2048 ⟨0, 0, 0⟩)
      (fun _ => ⟨0, 0, 0⟩) 4 (by decide) (Or.inl (by decide)) [3, 2, 1, 0] (by decide)).2.2.1⟩

/-! ### C11 -/

theorem ppm_image_ext {a b : ppm_image} (hx : a.x = b.x) (hy : a.y = b.y)
    (hd : a.data = b.data) : a = b := by
  cases a
  cases b
  simp only at hx hy hd
  subst hx hy hd
  rfl

/-- The first branch, line by line, stores what `sample_stores` lists for the source. -/
theorem branch_direct_stores_eq (st : struct_thread) :
    branch_direct_stores st = sample_stores st.image st.step_x st.step_y st.id st.P := rfl

/-- The second branch, line by line, stores what `sample_stores` lists for the canvas. -/
theorem branch_scaled_stores_eq (st : struct_thread) :
    branch_scaled_stores st = sample_stores st.scaled_image st.step_x st.step_y st.id st.P := rfl

/-- The first branch over the thread argument is `thread_function_direct` over the shared
memory. -/
theorem branch_direct_shared (st : struct_thread) :
    (⟨(branch_direct st).image, (branch_direct st).scaled_image, (branch_direct st).grid⟩ : Shared)
      = thread_function_direct st.contour_map st.step_x st.step_y st.P st.id
          ⟨st.image, st.scaled_image, st.grid⟩ := rfl

/-- The second branch after the barrier over the thread argument is `thread_function_scaled`
over the shared memory. -/
theorem branch_scaled_shared (st : struct_thread) :
    (⟨(branch_scaled st).image, (branch_scaled st).scaled_image, (branch_scaled st).grid⟩ : Shared)
      = thread_function_scaled st.contour_map st.step_x st.step_y st.P st.id
          ⟨st.image, st.scaled_image, st.grid⟩ := rfl

/-- Running workers through the first branch leaves the canvas and the dimensions of the
source alone. -/
theorem run_direct_frame (contour_map : Nat → ppm_image) (step_x step_y P : Nat)
    (order : List Nat) (s : Shared) :
    (run_direct contour_map step_x step_y P order s).scaled_image = s.scaled_image ∧
    (run_direct contour_map step_x step_y P order s).image.x = s.image.x ∧
    (run_direct contour_map step_x step_y P order s).image.y = s.image.y := by
  unfold run_direct
  induction order generalizing s with
  | nil => exact ⟨rfl, rfl, rfl⟩
  | cons id order ih =>
    simp only [List.foldl_cons]
    have := ih (thread_function_direct contour_map step_x step_y P id s)
    simp only [thread_function_direct, march_x, march_y] at this
    exact this

/-- C11. Rescale-skip equivalence: for every thread argument whose source image has
`image.x <= 2048` and `image.y <= 2048` (any `P`, any `id`), `thread_function` makes no
call of `sample_bicubic`, leaves the canvas as it was and has nothing left to do after the
barrier point; its grid is the sampling of the source buffer and its image is `march`
applied to the source buffer as it was on entry, so sampling has not touched the pixels
that stamping starts from; `main` selects the source buffer as output, for one worker and
after any sequence of workers. -/
theorem rescale_skip (sample_bicubic : ppm_image → Nat → Nat → ppm_pixel)
    (st : struct_thread) (hfit : st.image.x ≤ RESCALE_X ∧ st.image.y ≤ RESCALE_Y) :
    thread_function_calls st = [] ∧
    (thread_function_to_barrier sample_bicubic st).scaled_image = st.scaled_image ∧
    thread_function_from_barrier (thread_function_to_barrier sample_bicubic st)
      = thread_function_to_barrier sample_bicubic st ∧
    (thread_function_to_barrier sample_bicubic st).grid
      = sample_stage st.image st.step_x st.step_y st.id st.P st.grid ∧
    (thread_function_to_barrier sample_bicubic st).image
      = march st.id st.P st.image (sample_stage st.image st.step_x st.step_y st.id st.P st.grid)
          st.contour_map st.step_x st.step_y ∧
    main_output (thread_function_to_barrier sample_bicubic st).image
        (thread_function_to_barrier sample_bicubic st).scaled_image
      = (thread_function_to_barrier sample_bicubic st).image ∧
    (∀ order : List Nat,
      (run_direct st.contour_map st.step_x st.step_y st.P order
          ⟨st.image, st.scaled_image, st.grid⟩).scaled_image = st.scaled_image ∧
      main_output
          (run_direct st.contour_map st.step_x st.step_y st.P order
            ⟨st.image, st.scaled_image, st.grid⟩).image
          (run_direct st.contour_map st.step_x st.step_y st.P order
            ⟨st.image, st.scaled_image, st.grid⟩).scaled_image
        = (run_direct st.contour_map st.step_x st.step_y st.P order
            ⟨st.image, st.scaled_image, st.grid⟩).image) := by
  have hf : fits st.image := hfit
  have hto : thread_function_to_barrier sample_bicubic st = branch_direct st := by
    unfold thread_function_to_barrier
    rw [if_pos hf]
  have hfits2 : fits (branch_direct st).image := by
    unfold fits branch_direct
    simp only [march_x, march_y]
    exact hfit
  refine ⟨?_, ?_, ?_, ?_, ?_, ?_, ?_⟩
  · unfold thread_function_calls
    rw [if_pos hf]
  · rw [hto]; rfl
  · rw [hto]
    unfold thread_function_from_barrier
    rw [if_pos hfits2]
  · rw [hto]; rfl
  · rw [hto]; rfl
  · rw [hto]
    unfold main_output
    rw [if_pos hfits2]
  · intro order
    obtain ⟨h1, h2, h3⟩ := run_direct_frame st.contour_map st.step_x st.step_y st.P order
      ⟨st.image, st.scaled_image, st.grid⟩
    refine ⟨h1, ?_⟩
    unfold main_output
    have : fits (run_direct st.contour_map st.step_x st.step_y st.P order
        ⟨st.image, st.scaled_image, st.grid⟩).image := by
      unfold fits
      rw [h2, h3]
      exact hfit
    rw [if_pos this]

theorem rescale_skip_witness :
    ((flat_image 16 16 ⟨220, 220, 220⟩).x ≤ RESCALE_X ∧
      (flat_image 16 16 ⟨220, 220, 220⟩).y ≤ RESCALE_Y) ∧
    thread_function_calls
      ⟨1, 2, flat_image 16 16 ⟨220, 220, 220⟩, gray_tiles,
        main_new_image (fun _ => ⟨0, 0, 0⟩), 8, 8, fun _ => 0⟩ = [] :=
  ⟨⟨by decide, by decide⟩,
    (rescale_skip (fun _ _ _ => ⟨0, 0, 0⟩)
      ⟨1, 2, flat_image 16 16 ⟨220, 220, 220⟩, gray_tiles,
        main_new_image (fun _ => ⟨0, 0, 0⟩), 8, 8, fun _ => 0⟩ ⟨by decide, by decide⟩).1⟩

/-! ### C15 -/

/-- C15. The two branches of `thread_function` sample and stamp identically: whatever the
thread argument, with the same image `A` as source of the first branch and as canvas of the
second branch (after the barrier), the two branches perform the same grid stores (same
cells, same values, same order), leave the same grid and produce the same image; the
stores of either branch go to the interior cells of the worker's rows, to `(p, q)`, to
`grid[i][q]` for `i` in the worker's partition of `p`, and to `grid[p][j]` for `j` in the
worker's partition of `q`. -/
theorem branches_agree (st : struct_thread) (A : ppm_image) :
    branch_direct_stores { st with image := A }
      = branch_scaled_stores { st with scaled_image := A } ∧
    (branch_direct { st with image := A }).grid
      = (branch_scaled { st with scaled_image := A }).grid ∧
    (branch_direct { st with image := A }).image
      = (branch_scaled { st with scaled_image := A }).scaled_image ∧
    (branch_direct_stores { st with image := A }).map Prod.fst
      = ((part_range st.id st.P (A.x / st.step_x)).flatMap fun i =>
            (List.range (A.y / st.step_y)).map fun j => (i, j))
        ++ [(A.x / st.step_x, A.y / st.step_y)]
        ++ (part_range st.id st.P (A.x / st.step_x)).map (fun i => (i, A.y / st.step_y))
        ++ (part_range st.id st.P (A.y / st.step_y)).map (fun j => (A.x / st.step_x, j)) ∧
    (branch_scaled_stores { st with scaled_image := A }).map Prod.fst
      = ((part_range st.id st.P (A.x / st.step_x)).flatMap fun i =>
            (List.range (A.y / st.step_y)).map fun j => (i, j))
        ++ [(A.x / st.step_x, A.y / st.step_y)]
        ++ (part_range st.id st.P (A.x / st.step_x)).map (fun i => (i, A.y / st.step_y))
        ++ (part_range st.id st.P (A.y / st.step_y)).map (fun j => (A.x / st.step_x, j)) := by
  refine ⟨rfl, rfl, rfl, ?_, ?_⟩
  · simp [branch_direct_stores, part_range, List.map_flatMap, Function.comp_def]
  · simp [branch_scaled_stores, part_range, List.map_flatMap, Function.comp_def]

/-! ### C16 -/

theorem part_range_single (N : Nat) : part_range 0 1 N = List.range N := by
  rw [part_range_eq, List.range_eq_range']
  simp

/-- The stores of `sample_grid` with `sigma = 200` are those of a single worker. -/
theorem sample_grid_stores_eq (image : ppm_image) (step_x step_y : Nat) :
    sample_grid_stores image step_x step_y 200 = sample_stores image step_x step_y 0 1 := by
  simp only [sample_grid_stores, sample_stores, sample_interior_stores, sample_last_col_stores,
    sample_last_row_stores, part_range_single, SIGMA]

/-- On an image that no worker stamps while the workers sample (every worker samples before
any worker stamps, which `thread_function` does not enforce), the grid left by the sampling
stages of all workers equals the grid returned by `sample_grid(image, step_x, step_y, 200)`
at every cell `(i, j)` with `i <= p` and `j <= q`. -/
theorem sample_all_eq_sample_grid (image : ppm_image) (step_x step_y P : Nat)
    (hP : 1 ≤ P) (order : List Nat) (horder : order.Perm (List.range P))
    (grid fresh : Grid) (i j : Nat) (hi : i ≤ image.x / step_x) (hj : j ≤ image.y / step_y) :
    sample_all image step_x step_y P order grid (i, j)
      = sample_grid image step_x step_y 200 fresh (i, j) := by
  have h1 : sample_grid image step_x step_y 200 fresh
      = sample_all image step_x step_y 1 [0] fresh := by
    unfold sample_grid sample_all sample_stage
    rw [sample_grid_stores_eq]
    rfl
  have hone : [0].Perm (List.range 1) := List.Perm.refl _
  rw [h1, sample_all_eq image step_x step_y hP horder grid hi hj,
    sample_all_eq image step_x step_y (by decide) hone fresh hi hj]

/-- C16 (the code departs from the claim). A source of 16 x 16 with all channels 220, steps
of 8, two workers, 8 x 8 tiles and a zeroed grid; every sampling read of both workers is
inside the buffer.  Worker 1 runs first: its `march` (line 269, with no barrier before it)
stamps the black tile 0 over rows 8 to 15, so the pixel at index `(16 - 1) * 16 + 0 * 8` is
black when worker 0 reads it in its last-row loop and stores `grid[2][0] = 1`.  The grid
returned by `sample_grid` for the source holds 0 in that cell, whatever the allocated rows
held. -/
theorem parallel_sampling_reads_stamped_pixels :
    fits (flat_shared 0).image ∧
    (∀ k ∈ sample_reads (flat_shared 0).image 8 8 0 2,
      k < (flat_shared 0).image.x * (flat_shared 0).image.y) ∧
    (∀ k ∈ sample_reads (flat_shared 0).image 8 8 1 2,
      k < (flat_shared 0).image.x * (flat_shared 0).image.y) ∧
    (thread_function_direct gray_tiles 8 8 2 1 (flat_shared 0)).image.data
        ((16 - 1) * 16 + 0 * 8) = ⟨0, 0, 0⟩ ∧
    (run_direct gray_tiles 8 8 2 [1, 0] (flat_shared 0)).grid (2, 0) = 1 ∧
    (∀ fresh : Grid, sample_grid (flat_shared 0).image 8 8 200 fresh (2, 0) = 0) := by
  refine ⟨by decide, ?_, ?_, ?_, ?_, ?_⟩
  · simp only [sample_reads, part_range_eq]
    decide
  · simp only [sample_reads, part_range_eq]
    decide
  · simp only [thread_function_direct, sample_stage, sample_stores, sample_interior_stores,
      sample_last_col_stores, sample_last_row_stores, march, march_cells, part_range_eq]
    decide
  · simp only [run_direct, List.foldl_cons, List.foldl_nil, thread_function_direct,
      sample_stage, sample_stores, sample_interior_stores, sample_last_col_stores,
      sample_last_row_stores, march, march_cells, part_range_eq]
    decide
  · intro fresh
    have hone : [0].Perm (List.range 1) := List.Perm.refl _
    rw [← sample_all_eq_sample_grid (flat_shared 0).image 8 8 1 (by decide) [0] hone fresh fresh
        2 0 (by decide) (by decide),
      sample_all_eq (flat_shared 0).image 8 8 (by decide) hone fresh (by decide) (by decide)]
    decide

/-! ### C13 -/

/-- A key named by some store holds afterwards a value that does not depend on the initial
content. -/
theorem applyStores_overwrite {κ α : Type} [DecidableEq κ] (ops : List (κ × α))
    (m m' : κ → α) (k : κ) (h : ∃ op ∈ ops, op.1 = k) :
    applyStores ops m k = applyStores ops m' k := by
  induction ops generalizing m m' with
  | nil =>
    obtain ⟨op, hop, _⟩ := h
    cases hop
  | cons op ops ih =>
    rw [applyStores_cons, applyStores_cons]
    by_cases hrest : ∃ o ∈ ops, o.1 = k
    · exact ih _ _ hrest
    · have hno : ∀ o ∈ ops, o.1 ≠ k := fun o ho hk => hrest ⟨o, ho, hk⟩
      rw [applyStores_of_not_mem ops _ k hno, applyStores_of_not_mem ops _ k hno]
      obtain ⟨o, ho, hk⟩ := h
      rcases List.mem_cons.mp ho with rfl | ho2
      · simp [store, hk]
      · exact absurd hk (hno o ho2)

/-- Performing a sequence of stores twice is performing it once. -/
theorem applyStores_append_self {κ α : Type} [DecidableEq κ] (ops : List (κ × α))
    (m : κ → α) : applyStores (ops ++ ops) m = applyStores ops m := by
  funext k
  rw [applyStores_append]
  by_cases h : ∃ op ∈ ops, op.1 = k
  · exact applyStores_overwrite ops _ _ k h
  · exact applyStores_of_not_mem ops _ k (fun o ho hk => h ⟨o, ho, hk⟩)

/-- The stores of `march` depend on the image through its dimensions only. -/
theorem march_stores_congr {image image' : ppm_image} (hx : image'.x = image.x)
    (hy : image'.y = image.y) (id P : Nat) (grid : Grid) (contour_map : Nat → ppm_image)
    (step_x step_y : Nat) :
    march_stores id P image' grid contour_map step_x step_y
      = march_stores id P image grid contour_map step_x step_y := by
  simp only [march_stores, march_cells, hx, hy, update_image_stores_congr hy]

/-- C13. Idempotence of stamping: for every image, grid, tile set, `P` and `id`, running
`march` a second time with the same arguments on the image it produced gives that image
again; a pixel that `march` stores into ends with a value that does not depend on the pixel
data of the image it started from (for images of the same dimensions); and a pixel that
`march` does not store into keeps its value. -/
theorem stamping_idempotent (id P : Nat) (image : ppm_image) (grid : Grid)
    (contour_map : Nat → ppm_image) (step_x step_y : Nat) :
    march id P (march id P image grid contour_map step_x step_y) grid contour_map step_x step_y
      = march id P image grid contour_map step_x step_y ∧
    (∀ image' : ppm_image, image'.x = image.x → image'.y = image.y →
      ∀ idx, (∃ op ∈ march_stores id P image grid contour_map step_x step_y, op.1 = idx) →
        (march id P image' grid contour_map step_x step_y).data idx
          = (march id P image grid contour_map step_x step_y).data idx) ∧
    (∀ idx, (¬ ∃ op ∈ march_stores id P image grid contour_map step_x step_y, op.1 = idx) →
      (march id P image grid contour_map step_x step_y).data idx = image.data idx) := by
  refine ⟨?_, ?_, ?_⟩
  · apply ppm_image_ext
    · rw [march_x, march_x]
    · rw [march_y, march_y]
    · rw [march_data, march_stores_congr (march_x _ _ _ _ _ _ _) (march_y _ _ _ _ _ _ _),
        march_data, ← applyStores_append, applyStores_append_self]
  · intro image' hx hy idx hidx
    rw [march_data, march_data, march_stores_congr hx hy]
    exact applyStores_overwrite _ _ _ idx hidx
  · intro idx hidx
    rw [march_data]
    exact applyStores_of_not_mem _ _ idx (fun o ho hk => hidx ⟨o, ho, hk⟩)

/-! ### C14 -/

/-- The values stored by the sampling stage are the thresholds of the pixels at
`sample_reads`, the constant of `grid[p][q] = 0` apart. -/
theorem sample_stores_reads (image : ppm_image) (step_x step_y id P : Nat) :
    (sample_interior_stores image step_x step_y id P
        ++ sample_last_col_stores image step_x step_y id P
        ++ sample_last_row_stores image step_x step_y id P).map Prod.snd
      = (sample_reads image step_x step_y id P).map (fun k => classify SIGMA (image.data k)) := by
  simp [sample_interior_stores, sample_last_col_stores, sample_last_row_stores, sample_reads,
    List.map_flatMap, Function.comp_def]

/-- The reads of the interior loop nest are inside the buffer. -/
theorem interior_read_in_bounds {X Y step_x step_y i j : Nat} (hi : i < X / step_x)
    (hj : j < Y / step_y) : i * step_x * Y + j * step_y < X * Y := by
  have h1 : X / step_x * step_x ≤ X := Nat.div_mul_le_self X step_x
  have h2 : (i + 1) * step_x ≤ X / step_x * step_x := Nat.mul_le_mul_right step_x hi
  have h3 : (i + 1) * step_x = i * step_x + step_x := by ring
  have h4 : Y / step_y * step_y ≤ Y := Nat.div_mul_le_self Y step_y
  have h5 : (j + 1) * step_y ≤ Y / step_y * step_y := Nat.mul_le_mul_right step_y hj
  have h6 : (j + 1) * step_y = j * step_y + step_y := by ring
  have hsx : 0 < step_x := by
    rcases Nat.eq_zero_or_pos step_x with h | h
    · subst h; simp at hi
    · exact h
  have hsy : 0 < step_y := by
    rcases Nat.eq_zero_or_pos step_y with h | h
    · subst h; simp at hj
    · exact h
  have h7 : (i * step_x + 1) * Y ≤ X * Y := Nat.mul_le_mul_right Y (by omega)
  have h8 : (i * step_x + 1) * Y = i * step_x * Y + Y := by ring
  omega

/-- The reads of the last-row loop are inside the buffer. -/
theorem last_row_read_in_bounds {X Y step_y j : Nat} (hX : 1 ≤ X) (hj : j < Y / step_y) :
    (X - 1) * Y + j * step_y < X * Y := by
  have h4 : Y / step_y * step_y ≤ Y := Nat.div_mul_le_self Y step_y
  have h5 : (j + 1) * step_y ≤ Y / step_y * step_y := Nat.mul_le_mul_right step_y hj
  have h6 : (j + 1) * step_y = j * step_y + step_y := by ring
  have hsy : 0 < step_y := by
    rcases Nat.eq_zero_or_pos step_y with h | h
    · subst h; simp at hj
    · exact h
  obtain ⟨n, rfl⟩ : ∃ n, X = n + 1 := ⟨X - 1, by omega⟩
  have h8 : (n + 1) * Y = n * Y + Y := by ring
  simp only [Nat.add_sub_cancel]
  omega

/-- C14 (the code departs from the claim). On `thin_image` (16 rows, 1 column, step 8, so
`p = 2`, `q = 0`) the single worker of `P = 1` reads, in the last-column loop at `i = 1`,
the index `i * step_x * image->y + image->x - 1 = 23`, while the buffer has
`16 * 1 = 16` entries; the threshold of that entry becomes `grid[1][0]`. -/
theorem last_column_read_out_of_bounds :
    (1 ≤ thin_image.x ∧ 1 ≤ thin_image.y) ∧
    1 * 8 * thin_image.y + thin_image.x - 1 = 23 ∧
    23 ∈ sample_reads thin_image 8 8 0 1 ∧
    ¬ 23 < thin_image.x * thin_image.y ∧
    ((1, 0), classify SIGMA (thin_image.data 23)) ∈ sample_stores thin_image 8 8 0 1 := by
  refine ⟨⟨by decide, by decide⟩, by decide, ?_, by decide, ?_⟩
  · simp only [sample_reads, part_range_eq]
    decide
  · simp only [sample_stores, sample_interior_stores, sample_last_col_stores,
      sample_last_row_stores, part_range_eq]
    decide

/-! ### C17 -/

/-- The pixels stored by `update_image` are the tile entries at `update_image_reads`. -/
theorem update_image_stores_reads (image contour : ppm_image) (x y : Nat) :
    (update_image_stores image contour x y).map Prod.snd
      = (update_image_reads contour).map contour.data := by
  simp [update_image_stores, update_image_reads, List.map_flatMap, Function.comp_def]

/-- The grid reads of `march` are inside the `(p + 1) x (q + 1)` grid. -/
theorem march_grid_reads_in_bounds {id P : Nat} (hid : id < P) (image : ppm_image)
    (step_x step_y : Nat) {c : Nat × Nat} (hc : c ∈ march_grid_reads id P image step_x step_y) :
    c.1 ≤ image.x / step_x ∧ c.2 ≤ image.y / step_y := by
  unfold march_grid_reads march_cells at hc
  obtain ⟨cell, hcell, hmem⟩ := List.mem_flatMap.mp hc
  rw [mem_cells, mem_part_range hid] at hcell
  have hp := part_end_le id P (image.x / step_x)
  simp only [List.mem_cons, List.mem_singleton, List.not_mem_nil, or_false] at hmem
  rcases hmem with rfl | rfl | rfl | rfl <;> simp only <;> omega

/-- The image stores of `march` are inside the image buffer. -/
theorem march_stores_in_bounds {id P : Nat} (hid : id < P) {image : ppm_image} {grid : Grid}
    {contour_map : Nat → ppm_image} {step_x step_y : Nat}
    (hbin : ∀ a b, a ≤ image.x / step_x → b ≤ image.y / step_y → grid (a, b) ≤ 1)
    (htiles : ∀ k, k < 16 → (contour_map k).x ≤ step_x ∧ (contour_map k).y ≤ step_y)
    {op : Nat × ppm_pixel} (hop : op ∈ march_stores id P image grid contour_map step_x step_y) :
    op.1 < image.x * image.y := by
  obtain ⟨i, j, a, b, hi, hj, ha, hb, rfl⟩ := (mem_march_stores hid op).mp hop
  have hp := part_end_le id P (image.x / step_x)
  have hk := march_k_lt hbin (show i < image.x / step_x by omega) hj
  obtain ⟨hw, hh⟩ := htiles _ hk
  obtain ⟨_, _, _, r4, r5⟩ := stamp_row (i := i) hj ha hb hw hh
  have h1 : image.x / step_x * step_x ≤ image.x := Nat.div_mul_le_self _ _
  have h2 : (i + 1) * step_x ≤ image.x / step_x * step_x :=
    Nat.mul_le_mul_right step_x (by omega)
  have h3 : (i * step_x + a + 1) * image.y ≤ image.x * image.y :=
    Nat.mul_le_mul_right image.y (by omega)
  have h4 : (i * step_x + a + 1) * image.y = (i * step_x + a) * image.y + image.y := by ring
  simp only
  omega

/-- C17 (the code departs from the claim). One worker stamps a black image of 8 x 8 with a
tile set whose tiles are all `tile_2x1` (2 rows, 1 column, within the 8 x 8 bound) and a
zeroed grid: for the tile row `i = 1`, `update_image` reads
`contour->data[contour->x * 1 + 0]`, index 2, of tile 0, whose buffer has `2 * 1 = 2`
entries. -/
theorem tile_read_out_of_bounds :
    (tile_2x1.x ≤ 8 ∧ tile_2x1.y ≤ 8) ∧
    tile_2x1.x * 1 + 0 = 2 ∧
    (0, 2) ∈ march_contour_reads 0 1 (flat_image 8 8 ⟨0, 0, 0⟩) (fun _ => 0)
      (fun _ => tile_2x1) 8 8 ∧
    ¬ 2 < tile_2x1.x * tile_2x1.y := by
  refine ⟨⟨by decide, by decide⟩, by decide, ?_, by decide⟩
  simp only [march_contour_reads, march_cells, part_range_eq]
  decide

/-! ### C12 -/

theorem classify_eq (sigma : Nat) (px : ppm_pixel) :
    classify sigma px = if curr_color px > sigma then 0 else 1 := rfl

/-- Two store sequences with the same stores, no two of which give one key different
values, have the same effect. -/
theorem applyStores_congr_mem {κ α : Type} [DecidableEq κ] (ops₁ ops₂ : List (κ × α))
    (m : κ → α) (hmem : ∀ op, op ∈ ops₁ ↔ op ∈ ops₂)
    (hfun : ∀ o ∈ ops₁, ∀ o' ∈ ops₁, o.1 = o'.1 → o.2 = o'.2) :
    applyStores ops₁ m = applyStores ops₂ m := by
  funext k
  by_cases h : ∃ op ∈ ops₁, op.1 = k
  · obtain ⟨op, hop, hk⟩ := h
    rw [applyStores_of_all ops₁ m k op.2
        (fun o ho hok => hfun o ho op hop (hok.trans hk.symm)) (Or.inr ⟨op, hop, hk⟩),
      applyStores_of_all ops₂ m k op.2
        (fun o ho hok => hfun o ((hmem o).mpr ho) op hop (hok.trans hk.symm))
        (Or.inr ⟨op, (hmem op).mp hop, hk⟩)]
  · rw [applyStores_of_not_mem ops₁ m k (fun o ho hk => h ⟨o, ho, hk⟩),
      applyStores_of_not_mem ops₂ m k (fun o ho hk => h ⟨o, (hmem o).mpr ho, hk⟩)]

/-- A sequence of `update_image` calls, started from any image of the same row stride. -/
theorem update_image_foldl (image : ppm_image) (l : List (ppm_image × Nat × Nat))
    (img : ppm_image) (hx : img.x = image.x) (hy : img.y = image.y) :
    (l.foldl (fun im t => update_image im t.1 t.2.1 t.2.2) img).x = image.x ∧
    (l.foldl (fun im t => update_image im t.1 t.2.1 t.2.2) img).y = image.y ∧
    (l.foldl (fun im t => update_image im t.1 t.2.1 t.2.2) img).data =
      applyStores (l.flatMap fun t => update_image_stores image t.1 t.2.1 t.2.2) img.data := by
  induction l generalizing img with
  | nil => exact ⟨hx, hy, rfl⟩
  | cons t l ih =>
    simp only [List.foldl_cons, List.flatMap_cons, applyStores_append]
    have := ih (update_image img t.1 t.2.1 t.2.2) hx hy
    refine ⟨this.1, this.2.1, ?_⟩
    rw [this.2.2]
    simp only [update_image, update_image_stores_congr hy]

/-- The stamping stages of the workers listed in `order`, one after another, on a fixed
grid. -/
theorem march_all_fold (P : Nat) (image : ppm_image) (grid : Grid)
    (contour_map : Nat → ppm_image) (step_x step_y : Nat) (order : List Nat)
    (img : ppm_image) (hx : img.x = image.x) (hy : img.y = image.y) :
    (order.foldl (fun im id => march id P im grid contour_map step_x step_y) img).x
      = image.x ∧
    (order.foldl (fun im id => march id P im grid contour_map step_x step_y) img).y
      = image.y ∧
    (order.foldl (fun im id => march id P im grid contour_map step_x step_y) img).data =
      applyStores
        (order.flatMap fun id => march_stores id P image grid contour_map step_x step_y)
        img.data := by
  induction order generalizing img with
  | nil => exact ⟨hx, hy, rfl⟩
  | cons id order ih =>
    simp only [List.foldl_cons, List.flatMap_cons, applyStores_append]
    have := ih (march id P img grid contour_map step_x step_y)
      ((march_x _ _ _ _ _ _ _).trans hx) ((march_y _ _ _ _ _ _ _).trans hy)
    refine ⟨this.1, this.2.1, ?_⟩
    rw [this.2.2, march_data, march_stores_congr hx hy]

/-- The pixel index of a stamp determines the cell and the offset in the tile. -/
theorem stamp_dest_inj {Y step_x step_y i j a b i' j' a' b' : Nat}
    (hj : j < Y / step_y) (hj' : j' < Y / step_y) (ha : a < step_x) (ha' : a' < step_x)
    (hb : b < step_y) (hb' : b' < step_y)
    (h : (i * step_x + a) * Y + j * step_y + b = (i' * step_x + a') * Y + j' * step_y + b') :
    i = i' ∧ j = j' ∧ a = a' ∧ b = b' := by
  obtain ⟨r1, r2, _, _, _⟩ := stamp_row (i := i) hj ha hb (Nat.le_refl _) (Nat.le_refl _)
  obtain ⟨s1, s2, _, _, _⟩ := stamp_row (i := i') hj' ha' hb' (Nat.le_refl _) (Nat.le_refl _)
  rw [h] at r1 r2
  have hrow : i * step_x + a = i' * step_x + a' := r1.symm.trans s1
  have hcol : j * step_y + b = j' * step_y + b' := r2.symm.trans s2
  obtain ⟨e1, e2⟩ := rowmajor_inj ha ha' hrow
  obtain ⟨e3, e4⟩ := rowmajor_inj hb hb' hcol
  exact ⟨e1, e3, e2, e4⟩

/-- When every sampled pixel is brighter than the threshold, sampling leaves 0 in every
cell. -/
theorem sample_value_bright (image : ppm_image) (step_x step_y : Nat)
    (hint : ∀ i j, i < image.x / step_x → j < image.y / step_y →
      SIGMA < curr_color (image.data (i * step_x * image.y + j * step_y)))
    (hcol : ∀ i, i < image.x / step_x →
      SIGMA < curr_color (image.data (i * step_x * image.y + image.x - 1)))
    (hrow : ∀ j, j < image.y / step_y →
      SIGMA < curr_color (image.data ((image.x - 1) * image.y + j * step_y)))
    (c : Nat × Nat) : sample_value image step_x step_y c = 0 := by
  unfold sample_value
  simp only [classify_eq]
  split
  · split
    · rw [if_pos (hint _ _ ‹_› ‹_›)]
    · rw [if_pos (hcol _ ‹_›)]
  · split
    · rw [if_pos (hrow _ ‹_›)]
    · rfl

/-- On a grid that is 0 on its `(p + 1) x (q + 1)` cells every code is 0. -/
theorem march_k_zero {grid : Grid} {p q i j : Nat}
    (hzero : ∀ a b, a ≤ p → b ≤ q → grid (a, b) = 0) (hi : i < p) (hj : j < q) :
    march_k grid i j = 0 := by
  unfold march_k
  rw [hzero i j (by omega) (by omega), hzero i (j + 1) (by omega) (by omega),
    hzero (i + 1) (j + 1) (by omega) (by omega), hzero (i + 1) j (by omega) (by omega)]

/-- On a zero grid `march` stamps tile 0 at every cell of the worker. -/
theorem march_stores_zero (id P : Nat) (hid : id < P) (image : ppm_image) (grid : Grid)
    (contour_map : Nat → ppm_image) (step_x step_y : Nat)
    (hzero : ∀ a b, a ≤ image.x / step_x → b ≤ image.y / step_y → grid (a, b) = 0) :
    march_stores id P image grid contour_map step_x step_y =
      (march_cells id P image step_x step_y).flatMap fun c =>
        update_image_stores image (contour_map 0) (c.1 * step_x) (c.2 * step_y) := by
  unfold march_stores
  apply List.flatMap_congr
  intro c hc
  unfold march_cells at hc
  rw [mem_cells, mem_part_range hid] at hc
  have hp := part_end_le id P (image.x / step_x)
  rw [march_k_zero hzero (show c.1 < image.x / step_x by omega) hc.2]

/-- Every cell `(i, j)` with `i < p`, `j < q` is visited by `march` for exactly one worker. -/
theorem march_cell_owner {P : Nat} (hP : 0 < P) (image : ppm_image) (step_x step_y : Nat)
    {i j : Nat} (hi : i < image.x / step_x) (hj : j < image.y / step_y) :
    ∃! id, id < P ∧ (i, j) ∈ march_cells id P image step_x step_y := by
  obtain ⟨id, ⟨hid, h1, h2⟩, huniq⟩ := part_cover (P := P) hP hi
  refine ⟨id, ⟨hid, ?_⟩, ?_⟩
  · unfold march_cells
    rw [mem_cells, mem_part_range hid]
    exact ⟨⟨h1, h2⟩, hj⟩
  · rintro b ⟨hb, hmb⟩
    unfold march_cells at hmb
    rw [mem_cells, mem_part_range hb] at hmb
    exact huniq b ⟨hb, hmb.1.1, hmb.1.2⟩

/-- On a zero grid, the stores of all workers together are the stamps of tile 0 at every
cell. -/
theorem mem_march_all_zero {P : Nat} (hP : 0 < P) {order : List Nat}
    (horder : order.Perm (List.range P)) (image : ppm_image) (grid : Grid)
    (contour_map : Nat → ppm_image) (step_x step_y : Nat)
    (hzero : ∀ a b, a ≤ image.x / step_x → b ≤ image.y / step_y → grid (a, b) = 0)
    (op : Nat × ppm_pixel) :
    op ∈ (order.flatMap fun id => march_stores id P image grid contour_map step_x step_y) ↔
      ∃ i j a b, i < image.x / step_x ∧ j < image.y / step_y ∧
        a < (contour_map 0).x ∧ b < (contour_map 0).y ∧
        op = ((i * step_x + a) * image.y + j * step_y + b,
          (contour_map 0).data ((contour_map 0).x * a + b)) := by
  have hmem : ∀ id, id ∈ order ↔ id < P := fun id => by rw [horder.mem_iff, List.mem_range]
  rw [List.mem_flatMap]
  constructor
  · rintro ⟨id, hid, hop⟩
    have hid2 := (hmem id).mp hid
    obtain ⟨i, j, a, b, hi, hj, ha, hb, rfl⟩ := (mem_march_stores hid2 op).mp hop
    have hp := part_end_le id P (image.x / step_x)
    have hi2 : i < image.x / step_x := by omega
    rw [march_k_zero hzero hi2 hj] at ha hb
    rw [march_k_zero hzero hi2 hj]
    exact ⟨i, j, a, b, hi2, hj, ha, hb, rfl⟩
  · rintro ⟨i, j, a, b, hi, hj, ha, hb, rfl⟩
    obtain ⟨id, ⟨hid, h1, h2⟩, _⟩ := part_cover (P := P) hP hi
    refine ⟨id, (hmem id).mpr hid, (mem_march_stores hid _).mpr ⟨i, j, a, b, ⟨h1, h2⟩, hj, ?_, ?_, ?_⟩⟩
    · rw [march_k_zero hzero hi hj]; exact ha
    · rw [march_k_zero hzero hi hj]; exact hb
    · rw [march_k_zero hzero hi hj]

/-- The end-to-end example on the schedule in which every worker samples before any worker
stamps (which `thread_function` does not enforce for `P >= 2`), and for the single worker
of `P = 1` as the code runs it: for a source of 16 x 16 whose 256 pixels all have channel
average 220, steps of 8 and a tile 0 of at most 8 x 8, the grid is 0 on its 3 x 3 cells,
every cell has code 0, and the image is the source after `update_image` with tile 0 at the
offsets `(0,0)`, `(0,8)`, `(8,0)`, `(8,8)`.  For any image and steps such that every sampled
pixel has `curr_color > 200`, `march` on the grid so sampled stamps tile 0 at every cell,
and every one of the `p * q` cells belongs to exactly one worker. -/
theorem staged_end_to_end_flat (image canvas : ppm_image) (contour_map : Nat → ppm_image)
    (P : Nat) (hP : 1 ≤ P) (order : List Nat) (horder : order.Perm (List.range P))
    (grid : Grid) (hx : image.x = 16) (hy : image.y = 16)
    (h220 : ∀ k, k < 256 →
      ((image.data k).red + (image.data k).green + (image.data k).blue) / 3 = 220)
    (htile : (contour_map 0).x ≤ 8 ∧ (contour_map 0).y ≤ 8) :
    (∀ i j, i ≤ 2 → j ≤ 2 → sample_all image 8 8 P order grid (i, j) = 0) ∧
    (∀ i j, i < 2 → j < 2 → march_k (sample_all image 8 8 P order grid) i j = 0) ∧
    (run_staged contour_map 8 8 P order ⟨image, canvas, grid⟩).image
      = update_image (update_image (update_image (update_image image
          (contour_map 0) 0 0) (contour_map 0) 0 8) (contour_map 0) 8 0) (contour_map 0) 8 8 ∧
    (run_direct contour_map 8 8 1 [0] ⟨image, canvas, grid⟩).image
      = update_image (update_image (update_image (update_image image
          (contour_map 0) 0 0) (contour_map 0) 0 8) (contour_map 0) 8 0) (contour_map 0) 8 8 ∧
    (∀ (img : ppm_image) (step_x step_y : Nat),
      (∀ i j, i < img.x / step_x → j < img.y / step_y →
        SIGMA < curr_color (img.data (i * step_x * img.y + j * step_y))) →
      (∀ i, i < img.x / step_x →
        SIGMA < curr_color (img.data (i * step_x * img.y + img.x - 1))) →
      (∀ j, j < img.y / step_y →
        SIGMA < curr_color (img.data ((img.x - 1) * img.y + j * step_y))) →
      (∀ id, id < P →
        march_stores id P img (sample_all img step_x step_y P order grid) contour_map
            step_x step_y
          = (march_cells id P img step_x step_y).flatMap fun c =>
              update_image_stores img (contour_map 0) (c.1 * step_x) (c.2 * step_y)) ∧
      (∀ i j, i < img.x / step_x → j < img.y / step_y →
        ∃! id, id < P ∧ (i, j) ∈ march_cells id P img step_x step_y)) := by
  have hp : image.x / 8 = 2 := by rw [hx]
  have hq : image.y / 8 = 2 := by rw [hy]
  have hbright : ∀ k, k < 256 → SIGMA < curr_color (image.data k) := by
    intro k hk
    unfold curr_color SIGMA
    rw [h220 k hk]
    decide
  -- the grid after sampling, for any image with bright samples
  have hgen : ∀ (img : ppm_image) (step_x step_y : Nat) (g0 : Grid) (Q : Nat) (hQ : 0 < Q)
      (ord : List Nat) (hord : ord.Perm (List.range Q)),
      (∀ i j, i < img.x / step_x → j < img.y / step_y →
        SIGMA < curr_color (img.data (i * step_x * img.y + j * step_y))) →
      (∀ i, i < img.x / step_x →
        SIGMA < curr_color (img.data (i * step_x * img.y + img.x - 1))) →
      (∀ j, j < img.y / step_y →
        SIGMA < curr_color (img.data ((img.x - 1) * img.y + j * step_y))) →
      ∀ a b, a ≤ img.x / step_x → b ≤ img.y / step_y →
        sample_all img step_x step_y Q ord g0 (a, b) = 0 := by
    intro img step_x step_y g0 Q hQ ord hord h1 h2 h3 a b ha hb
    rw [sample_all_eq img step_x step_y hQ hord g0 ha hb]
    exact sample_value_bright img step_x step_y h1 h2 h3 (a, b)
  have hint : ∀ i j, i < image.x / 8 → j < image.y / 8 →
      SIGMA < curr_color (image.data (i * 8 * image.y + j * 8)) := by
    intro i j hi hj
    apply hbright
    rw [hy]
    omega
  have hcol : ∀ i, i < image.x / 8 →
      SIGMA < curr_color (image.data (i * 8 * image.y + image.x - 1)) := by
    intro i hi
    apply hbright
    rw [hx, hy]
    omega
  have hrow : ∀ j, j < image.y / 8 →
      SIGMA < curr_color (image.data ((image.x - 1) * image.y + j * 8)) := by
    intro j hj
    apply hbright
    rw [hx, hy]
    omega
  have hzeroQ : ∀ (Q : Nat) (hQ : 0 < Q) (ord : List Nat) (hord : ord.Perm (List.range Q))
      (a b : Nat), a ≤ image.x / 8 → b ≤ image.y / 8 →
      sample_all image 8 8 Q ord grid (a, b) = 0 :=
    fun Q hQ ord hord => hgen image 8 8 grid Q hQ ord hord hint hcol hrow
  -- the staged run stamps tile 0 at the four offsets, for any number of workers
  have hstaged : ∀ (Q : Nat) (hQ : 0 < Q) (ord : List Nat) (hord : ord.Perm (List.range Q)),
      (run_staged contour_map 8 8 Q ord ⟨image, canvas, grid⟩).image
        = update_image (update_image (update_image (update_image image
            (contour_map 0) 0 0) (contour_map 0) 0 8) (contour_map 0) 8 0)
            (contour_map 0) 8 8 := by
    intro Q hQ ord hord
    have hz := hzeroQ Q hQ ord hord
    have hL := march_all_fold Q image (sample_all image 8 8 Q ord grid) contour_map 8 8 ord
      image rfl rfl
    have hR := update_image_foldl image
      [(contour_map 0, 0, 0), (contour_map 0, 0, 8), (contour_map 0, 8, 0),
        (contour_map 0, 8, 8)] image rfl rfl
    simp only [List.foldl_cons, List.foldl_nil] at hR
    have hmemR : ∀ op : Nat × ppm_pixel,
        op ∈ ([(contour_map 0, 0, 0), (contour_map 0, 0, 8), (contour_map 0, 8, 0),
          (contour_map 0, 8, 8)].flatMap fun t => update_image_stores image t.1 t.2.1 t.2.2) ↔
        ∃ i j a b, i < image.x / 8 ∧ j < image.y / 8 ∧
          a < (contour_map 0).x ∧ b < (contour_map 0).y ∧
          op = ((i * 8 + a) * image.y + j * 8 + b,
            (contour_map 0).data ((contour_map 0).x * a + b)) := by
      intro op
      simp only [List.flatMap_cons, List.flatMap_nil, List.append_nil, List.mem_append,
        mem_update_image_stores, hp, hq]
      constructor
      · rintro (⟨a, b, ha, hb, rfl⟩ | ⟨a, b, ha, hb, rfl⟩ | ⟨a, b, ha, hb, rfl⟩ |
          ⟨a, b, ha, hb, rfl⟩)
        · exact ⟨0, 0, a, b, by decide, by decide, ha, hb, by simp⟩
        · exact ⟨0, 1, a, b, by decide, by decide, ha, hb, by simp⟩
        · exact ⟨1, 0, a, b, by decide, by decide, ha, hb, by simp⟩
        · exact ⟨1, 1, a, b, by decide, by decide, ha, hb, by simp⟩
      · rintro ⟨i, j, a, b, hi, hj, ha, hb, rfl⟩
        interval_cases i <;> interval_cases j
        · exact Or.inl ⟨a, b, ha, hb, by simp⟩
        · exact Or.inr (Or.inl ⟨a, b, ha, hb, by simp⟩)
        · exact Or.inr (Or.inr (Or.inl ⟨a, b, ha, hb, by simp⟩))
        · exact Or.inr (Or.inr (Or.inr ⟨a, b, ha, hb, by simp⟩))
    apply ppm_image_ext
    · show (ord.foldl (fun im id => march id Q im (sample_all image 8 8 Q ord grid)
        contour_map 8 8) image).x = _
      rw [hL.1, hR.1]
    · show (ord.foldl (fun im id => march id Q im (sample_all image 8 8 Q ord grid)
        contour_map 8 8) image).y = _
      rw [hL.2.1, hR.2.1]
    · show (ord.foldl (fun im id => march id Q im (sample_all image 8 8 Q ord grid)
        contour_map 8 8) image).data = _
      rw [hL.2.2, hR.2.2]
      symm
      apply applyStores_congr_mem
      · intro op
        rw [hmemR op, mem_march_all_zero hQ hord image _ contour_map 8 8 hz op]
      · intro o ho o' ho' hk
        obtain ⟨i, j, a, b, _, hj, ha, hb, rfl⟩ := (hmemR o).mp ho
        obtain ⟨i', j', a', b', _, hj', ha', hb', rfl⟩ := (hmemR o').mp ho'
        obtain ⟨_, _, e3, e4⟩ := stamp_dest_inj hj hj' (show a < 8 by omega)
          (show a' < 8 by omega) (show b < 8 by omega) (show b' < 8 by omega) hk
        simp only [e3, e4]
  refine ⟨?_, ?_, ?_, ?_, ?_⟩
  · intro i j hi hj
    exact hzeroQ P hP order horder i j (by omega) (by omega)
  · intro i j hi hj
    exact march_k_zero (p := 2) (q := 2)
      (fun a b ha hb => hzeroQ P hP order horder a b (by omega) (by omega)) hi hj
  · exact hstaged P hP order horder
  · exact hstaged 1 (by decide) [0] (List.Perm.refl _)
  · intro img step_x step_y h1 h2 h3
    refine ⟨fun id hid => ?_, fun i j hi hj => march_cell_owner hP img step_x step_y hi hj⟩
    exact march_stores_zero id P hid img _ contour_map step_x step_y
      (hgen img step_x step_y grid P hP order horder h1 h2 h3)

set_option maxRecDepth 4000 in
/-- C12 (the code departs from the claim). A source of 16 x 16 with all channels 220, steps
of 8, two workers, 8 x 8 tiles (tile `k` of colour `k`) and a grid whose bytes hold 7 when
allocated.  Worker 1 runs first: after its sampling `grid[2][0]` still holds 7 (worker 0
samples it), so its `march` (line 269, with no barrier before it) computes the code 7 for
the cell `(1, 0)`, not 0, and the pixel at offset `(8, 0)` ends with the colour of tile 7,
while the source with tile 0 copied at the four offsets has the colour of tile 0 there;
at the end `grid[2][0]` holds 1, not 0.  When worker 0 runs first, it computes the code 21
for the cell `(0, 0)`, which is not one of the 16 tiles. -/
theorem end_to_end_flat_unsynchronised :
    fits (flat_shared 7).image ∧
    march_k (sample_stage (flat_shared 7).image 8 8 1 2 (flat_shared 7).grid) 1 0 = 7 ∧
    (run_direct gray_tiles 8 8 2 [1, 0] (flat_shared 7)).image.data (8 * 16 + 0) = ⟨7, 7, 7⟩ ∧
    (update_image (update_image (update_image (update_image (flat_shared 7).image
        (gray_tiles 0) 0 0) (gray_tiles 0) 0 8) (gray_tiles 0) 8 0) (gray_tiles 0) 8 8).data
        (8 * 16 + 0) = ⟨0, 0, 0⟩ ∧
    (run_direct gray_tiles 8 8 2 [1, 0] (flat_shared 7)).grid (2, 0) = 1 ∧
    march_k (sample_stage (flat_shared 7).image 8 8 0 2 (flat_shared 7).grid) 0 0 = 21 := by
  refine ⟨by decide, ?_, ?_, ?_, ?_, ?_⟩
  · simp only [sample_stage, sample_stores, sample_interior_stores,
      sample_last_col_stores, sample_last_row_stores, part_range_eq]
    decide
  · simp only [run_direct, List.foldl_cons, List.foldl_nil, thread_function_direct,
      sample_stage, sample_stores, sample_interior_stores, sample_last_col_stores,
      sample_last_row_stores, march, march_cells, part_range_eq]
    decide
  · decide
  · simp only [run_direct, List.foldl_cons, List.foldl_nil, thread_function_direct,
      sample_stage, sample_stores, sample_interior_stores, sample_last_col_stores,
      sample_last_row_stores, march, march_cells, part_range_eq]
    decide
  · simp only [sample_stage, sample_stores, sample_interior_stores,
      sample_last_col_stores, sample_last_row_stores, part_range_eq]
    decide

end MarchingSquares
